import Mathlib

/-!
Emoji tokenizer, segmenter and render loop of `main.go`.

A shallow embedding of the sticker renderer.  A Go `string` that is only ever
read through `[]rune(...)` is a list of Unicode scalar values, which is what a
Lean `String` is; a `rune` obtained that way is a `Char`.  Indices are `Nat`
(a negative start index makes the Go code panic on its first slice access).
-/

namespace WaSticker

/-! ## Constants and the code-point classifier -/

/-- The constant `replacementChar = rune(65525)`. -/
def replacementChar : Char := Char.ofNat 65525

/-- The constant `joinChar = rune(8205)` (U+200D). -/
def joinChar : Char := Char.ofNat 8205

/-- The function `isEmoji`: four closed ranges tested on `int(aChar)`. -/
def isEmoji (aChar : Char) : Bool :=
  let rangeMin := 127744
  let rangeMax := 129782
  let rangeMin2 := 126980
  let rangeMax2 := 127569
  let rangeMin3 := 169
  let rangeMax3 := 174
  let rangeMin4 := 8205
  let rangeMax4 := 12953
  let charCode := aChar.toNat
  if rangeMin ≤ charCode ∧ charCode ≤ rangeMax then true
  else if rangeMin2 ≤ charCode ∧ charCode ≤ rangeMax2 then true
  else if rangeMin3 ≤ charCode ∧ charCode ≤ rangeMax3 then true
  else if rangeMin4 ≤ charCode ∧ charCode ≤ rangeMax4 then true
  else false

/-- The function `isSkinToneModifier`: U+1F3FB .. U+1F3FF. -/
def isSkinToneModifier (char : Char) : Bool :=
  char.toNat == 127995 || char.toNat == 127996 || char.toNat == 127997 ||
    char.toNat == 127998 || char.toNat == 127999

/-! ## The Go library functions the program calls -/

/-- Upper-case hexadecimal digit, the table `udigits` of package `fmt`. -/
def upperHexDigit (d : Nat) : Char :=
  if d < 10 then Char.ofNat (48 + d) else Char.ofNat (55 + d)

/-- The digit loop of `fmt`'s `%U`: digits are produced from the least
significant one, right to left, while the value is at least 16.  The value is
a `uint64` there, so sixteen rounds always suffice. -/
def hexLoop : Nat → Nat → List Char → List Char
  | 0, _, acc => acc
  | fuel + 1, u, acc =>
    if 16 ≤ u then hexLoop fuel (u / 16) (upperHexDigit (u % 16) :: acc)
    else upperHexDigit u :: acc

/-- Zero padding of `%U` up to the default precision of four digits. -/
def padZeros (ds : List Char) : List Char :=
  List.replicate (4 - ds.length) '0' ++ ds

/-- The verb `%U` of `fmt.Sprintf` applied to a rune: `U+` and at least four
upper-case hexadecimal digits. -/
def sprintfU (char : Char) : String :=
  String.mk ('U' :: '+' :: padZeros (hexLoop 16 char.toNat []))

/-- The function `strings.ToLower`, on the ASCII strings it is given here. -/
def stringsToLower (s : String) : String :=
  String.mk (s.data.map Char.toLower)

/-- Replacement of the non-overlapping occurrences of a non-empty `old`,
scanning a list of runes from the left; the counter is the number of runes of
a match that are still to be skipped. -/
def replaceRunes (old new : List Char) : Nat → List Char → List Char
  | _, [] => []
  | skip + 1, _ :: cs => replaceRunes old new skip cs
  | 0, c :: cs =>
    if old.isPrefixOf (c :: cs) then new ++ replaceRunes old new (old.length - 1) cs
    else c :: replaceRunes old new 0 cs

/-- The function `strings.ReplaceAll` (and `strings.Replace` with count `-1`)
for a non-empty `old`. -/
def stringsReplaceAll (s old new : String) : String :=
  String.mk (replaceRunes old.data new.data 0 s.data)

/-! ## Naming -/

/-- The function `getCharUnicode`. -/
def getCharUnicode (char : Char) : String :=
  stringsReplaceAll (stringsToLower (sprintfU char)) "u+" "u"

/-- The global `validModifiers`, a Go `map[string][]string`: a lookup that
gives the empty slice for a key that is absent. -/
abbrev ModifierTable := String → List String

/-- The function `isModifierPair`, with the global table as a parameter. -/
def isModifierPair (validModifiers : ModifierTable) (char1 char2 : Char) : Bool :=
  let charUnicode1 := stringsReplaceAll (getCharUnicode char1) "u" ""
  let modifiersFound := validModifiers charUnicode1
  if modifiersFound.length = 0 then false
  else
    let charUnicode2 := stringsReplaceAll (getCharUnicode char2) "u" ""
    modifiersFound.any (fun modifier => modifier == charUnicode2)

/-- The loop of `buildEmojiFilename`: `len` is `len(sequence)`, the counter is
the loop index and the accumulator is `filename`. -/
def filenameLoop (len : Nat) : Nat → List Char → String → String
  | _, [], filename => filename
  | i, char :: rest, filename =>
    let charUnicode := getCharUnicode char
    let charUnicode := if i ≠ 0 then stringsReplaceAll charUnicode "u" "" else charUnicode
    let filename := filename ++ charUnicode
    let filename := if i ≠ len - 1 then filename ++ "_" else filename
    filenameLoop len (i + 1) rest filename

/-- The function `buildEmojiFilename`. -/
def buildEmojiFilename (sequence : List Char) : String :=
  "emoji_" ++ filenameLoop sequence.length 0 sequence "" ++ ".png"

/-! ## The tokenizer -/

/-- The `for` loop of `parseEmoji`, from index `i`, with the accumulated
`emojiSequence` and the flag `joinedLastChar`; a `break` returns the
accumulator.  The first argument bounds the number of iterations. -/
def parseLoop (validModifiers : ModifierTable) (stringRunes : List Char) :
    Nat → Nat → List Char → Bool → List Char
  | 0, _, emojiSequence, _ => emojiSequence
  | fuel + 1, i, emojiSequence, joinedLastChar =>
    if h : i < stringRunes.length then
      let char := stringRunes[i]
      if char = joinChar then
        if emojiSequence.length = 0 then emojiSequence
        else parseLoop validModifiers stringRunes fuel (i + 1) (emojiSequence ++ [char])
          joinedLastChar
      else if isEmoji char then
        if emojiSequence.length = 0 then
          parseLoop validModifiers stringRunes fuel (i + 1) (emojiSequence ++ [char])
            joinedLastChar
        else if joinedLastChar then emojiSequence
        else if i ≠ 0 ∧ isSkinToneModifier stringRunes[i - 1] then emojiSequence
        else if i ≠ 0 ∧ stringRunes[i - 1] = joinChar then
          parseLoop validModifiers stringRunes fuel (i + 1) (emojiSequence ++ [char])
            joinedLastChar
        else if isSkinToneModifier char then
          parseLoop validModifiers stringRunes fuel (i + 1) (emojiSequence ++ [char])
            joinedLastChar
        else if i ≠ 0 ∧ isModifierPair validModifiers stringRunes[i - 1] char then
          parseLoop validModifiers stringRunes fuel (i + 1) (emojiSequence ++ [char]) true
        else emojiSequence
      else emojiSequence
    else emojiSequence

/-- The function `parseEmoji`: the loop runs from `startI`, at most
`len(stringRunes) - startI` times since each iteration advances the index. -/
def parseEmoji (validModifiers : ModifierTable) (text : String) (startI : Nat) :
    List Char × Nat :=
  let stringRunes := text.data
  let emojiSequence :=
    parseLoop validModifiers stringRunes (stringRunes.length - startI) startI [] false
  if emojiSequence.length = 0 then ([], startI)
  else (emojiSequence, startI + emojiSequence.length - 1)

/-! ## The segmenter loop of `main` -/

/-- The variables of the segmenter loop: the index `i`, the string
`withoutEmojis` and the slice `emojisUsed`. -/
structure SegState where
  i : Nat
  withoutEmojis : String
  emojisUsed : List String
  deriving DecidableEq, Repr

/-- One iteration of the segmenter loop, the increment `i++` included;
`none` when the loop condition `i < len(stringRunes)` fails. -/
def segStep (validModifiers : ModifierTable) (actualString : String) (st : SegState) :
    Option SegState :=
  let stringRunes := actualString.data
  if h : st.i < stringRunes.length then
    let char := stringRunes[st.i]
    if isEmoji char then
      let r := parseEmoji validModifiers actualString st.i
      if r.1.length = 0 then
        some { st with i := st.i + 1 }
      else
        some { i := r.2 + 1
               withoutEmojis := st.withoutEmojis ++ String.singleton replacementChar
               emojisUsed := st.emojisUsed ++ [buildEmojiFilename r.1] }
    else
      some { st with i := st.i + 1
                     withoutEmojis := st.withoutEmojis ++ String.singleton char }
  else none

/-- The segmenter loop run for at most the given number of iterations. -/
def segLoop (validModifiers : ModifierTable) (actualString : String) :
    Nat → SegState → SegState
  | 0, st => st
  | fuel + 1, st =>
    match segStep validModifiers actualString st with
    | none => st
    | some st' => segLoop validModifiers actualString fuel st'

/-- The state before the first iteration. -/
def segInit : SegState := { i := 0, withoutEmojis := "", emojisUsed := [] }

/-- The segmenter of `main` on an input text: the normalized string and the
asset-key list at loop exit.  Every iteration advances `i`, so
`len(stringRunes)` iterations are enough. -/
def segment (validModifiers : ModifierTable) (actualString : String) :
    String × List String :=
  let st := segLoop validModifiers actualString actualString.length segInit
  (st.withoutEmojis, st.emojisUsed)

/-! ## The render loop of `main` -/

/-- What `emojisF.Open` followed by `image.Decode` gives for a file name. -/
inductive Asset
  | missing
  | undecodable
  | image
  deriving DecidableEq, Repr

/-- The anchor arguments that occur in the drawing calls: `0`, `0.5`, `1`. -/
inductive Anchor
  | zero
  | half
  | one
  deriving DecidableEq, Repr

/-- What one iteration of the render loop does, with the index of the rune
of `runes` it handles.  A drawing call carries the coordinates and the anchor
arguments it is given: `DrawImageAnchored` the integers `int(x)`, `int(y)`,
`DrawStringAnchored` the cursor `(x, y)` itself. -/
inductive RenderEvent (α : Type)
  | indexOutOfRange (i : Nat)
  | loadError (i : Nat) (emojiFilename : String)
  | decodeError (i : Nat) (emojiFilename : String)
  | drawImage (i : Nat) (emojiFilename : String) (x y : Int) (ax ay : Anchor)
  | skipSelector (i : Nat)
  | drawString (i : Nat) (char : Char) (x y : α) (ax ay : Anchor)
  deriving DecidableEq, Repr

/-- The variables of the render loop, `x` and `emojiIndex`, and the trace of
what the iterations did so far. -/
structure RenderState (α : Type) where
  x : α
  emojiIndex : Nat
  trace : List (RenderEvent α)
  deriving DecidableEq, Repr

/-- One iteration of the render loop at rune `i` of `runes`.  The widths are
those of the text-metrics service: `MWidth` and `measure` for one rune;
`toInt` is the Go conversion `int(...)` of a `float64`. -/
def renderStep {α : Type} [Add α] (emojisUsed : List String) (assets : String → Asset)
    (MWidth : α) (measure : Char → α) (toInt : α → Int) (y : α) (i : Nat) (char : Char)
    (st : RenderState α) : RenderState α :=
  if char = replacementChar then
    let x := st.x + MWidth
    if h : st.emojiIndex ≥ emojisUsed.length then
      { st with x := x, trace := st.trace ++ [RenderEvent.indexOutOfRange i] }
    else
      let emojiFilename := emojisUsed[st.emojiIndex]
      match assets ("data/emojis/" ++ emojiFilename) with
      | Asset.missing =>
        { st with x := x, trace := st.trace ++ [RenderEvent.loadError i emojiFilename] }
      | Asset.undecodable =>
        { st with x := x, trace := st.trace ++ [RenderEvent.decodeError i emojiFilename] }
      | Asset.image =>
        { x := x
          emojiIndex := st.emojiIndex + 1
          trace := st.trace ++
            [RenderEvent.drawImage i emojiFilename (toInt x) (toInt y) Anchor.one
              Anchor.half] }
  else if char.toNat = 65039 ∨ char.toNat = 65038 then
    { st with trace := st.trace ++ [RenderEvent.skipSelector i] }
  else
    let runeWidth := measure char
    { st with x := st.x + runeWidth
              trace := st.trace ++
                [RenderEvent.drawString i char st.x y Anchor.zero Anchor.half] }

/-- The render loop over the runes that are left, `i` being the index of the
first of them. -/
def renderLoop {α : Type} [Add α] (emojisUsed : List String) (assets : String → Asset)
    (MWidth : α) (measure : Char → α) (toInt : α → Int) (y : α) :
    Nat → List Char → RenderState α → RenderState α
  | _, [], st => st
  | i, char :: rest, st =>
    renderLoop emojisUsed assets MWidth measure toInt y (i + 1) rest
      (renderStep emojisUsed assets MWidth measure toInt y i char st)

/-- The render pass of `main`: the loop over `[]rune(withoutEmojis)` from the
start cursor `startX` with `emojiIndex := 0`. -/
def render {α : Type} [Add α] (withoutEmojis : String) (emojisUsed : List String)
    (assets : String → Asset) (MWidth : α) (measure : Char → α)
    (toInt : α → Int) (startX y : α) :
    RenderState α :=
  renderLoop emojisUsed assets MWidth measure toInt y 0 withoutEmojis.data
    { x := startX, emojiIndex := 0, trace := [] }

/-- The amount `int(a * float64(extent))` that `DrawImageAnchored` of package
`gg` subtracts from a coordinate before it places the top-left corner of an
image of that extent there, for the anchor values that occur. -/
def anchorOffset (a : Anchor) (extent : Nat) : Nat :=
  match a with
  | Anchor.zero => 0
  | Anchor.half => extent / 2
  | Anchor.one => extent

/-- The left edge of an image of width `w` that `DrawImageAnchored` draws at
the integer coordinate `x` with the horizontal anchor `ax`. -/
def imageLeft (x : Int) (ax : Anchor) (w : Nat) : Int :=
  x - anchorOffset ax w

/-- The top edge of an image of height `h` that `DrawImageAnchored` draws at
the integer coordinate `y` with the vertical anchor `ay`. -/
def imageTop (y : Int) (ay : Anchor) (h : Nat) : Int :=
  y - anchorOffset ay h

/-! ## The asset key in the words of the specification -/

/-- The lower-case hexadecimal form of a code point, zero-padded to at least
four digits. -/
def specHex (c : Char) : String :=
  let digits := Nat.toDigits 16 c.toNat
  String.mk (List.replicate (4 - digits.length) '0' ++ digits)

/-- The tokens of a sequence: the first is `u` followed by the hexadecimal
form, every later one is the hexadecimal form alone. -/
def specTokens : List Char → List String
  | [] => []
  | c0 :: rest => ("u" ++ specHex c0) :: rest.map specHex

/-- The asset key as the specification words it: `emoji_`, the tokens joined
with `_`, and `.png`. -/
def specFilename (sequence : List Char) : String :=
  "emoji_" ++ "_".intercalate (specTokens sequence) ++ ".png"

/-- The sixteen lower-case hexadecimal digits. -/
def lowerHexChars : List Char :=
  ['0', '1', '2', '3', '4', '5', '6', '7', '8', '9', 'a', 'b', 'c', 'd', 'e', 'f']

/-- The runes of the tokens after the first, each preceded by its `_`. -/
def specTail : List Char → List Char
  | [] => []
  | d :: rest => '_' :: (specHex d).data ++ specTail rest

/-- The value of a lower-case hexadecimal digit. -/
def hexDigitValue (c : Char) : Nat :=
  if c.toNat < 58 then c.toNat - 48 else c.toNat - 87

/-- The number a string of lower-case hexadecimal digits stands for. -/
def hexValue (ds : List Char) : Nat :=
  ds.foldl (fun v c => 16 * v + hexDigitValue c) 0

/-! ## A sample modifier table -/

/-- A modifier table with the single entry `1f1fa ↦ [1f1f8]`, the regional
indicators U and S. -/
def flagTable : ModifierTable :=
  fun key => if key = "1f1fa" then ["1f1f8"] else []

/-- The regional indicator U+1F1FA. -/
def regionalU : Char := Char.ofNat 127482

/-- The regional indicator U+1F1F8. -/
def regionalS : Char := Char.ofNat 127480

/-! ## The tokenizer consumes a contiguous run -/

/-- The loop of `parseEmoji` only ever appends the runes it walks over: its
result is the accumulator followed by a run of the text that starts at the
loop index and stays inside the text. -/
theorem parseLoop_run (vm : ModifierTable) (runes : List Char) :
    ∀ (fuel i : Nat) (acc : List Char) (joined : Bool),
      ∃ n, parseLoop vm runes fuel i acc joined = acc ++ (runes.drop i).take n ∧
        n ≤ runes.length - i := by
  intro fuel
  induction fuel with
  | zero => intro i acc joined; exact ⟨0, by simp [parseLoop], Nat.zero_le _⟩
  | succ fuel ih =>
    intro i acc joined
    have stop : ∃ n, acc = acc ++ (runes.drop i).take n ∧ n ≤ runes.length - i :=
      ⟨0, by simp, Nat.zero_le _⟩
    have go : ∀ (h : i < runes.length) (j : Bool),
        ∃ n, parseLoop vm runes fuel (i + 1) (acc ++ [runes[i]]) j =
          acc ++ (runes.drop i).take n ∧ n ≤ runes.length - i := by
      intro h j
      obtain ⟨n, hn, hle⟩ := ih (i + 1) (acc ++ [runes[i]]) j
      refine ⟨n + 1, ?_, by omega⟩
      rw [hn, List.drop_eq_getElem_cons h, List.take_succ_cons]
      simp
    unfold parseLoop
    by_cases h : i < runes.length
    · simp only [h, dite_true]
      split_ifs <;> first | exact stop | exact go h _
    · simp only [h, dite_false]
      exact stop

/-- More iterations than there are runes left change nothing: the bound
`len(stringRunes) - startI` of `parseEmoji` never cuts the loop short. -/
theorem parseLoop_fuel (vm : ModifierTable) (runes : List Char) :
    ∀ (fuel i : Nat) (acc : List Char) (joined : Bool), runes.length - i ≤ fuel →
      parseLoop vm runes fuel i acc joined =
        parseLoop vm runes (runes.length - i) i acc joined := by
  intro fuel
  induction fuel with
  | zero =>
    intro i acc joined h
    have h0 : runes.length - i = 0 := by omega
    rw [h0]
  | succ fuel ih =>
    intro i acc joined h
    by_cases hi : i < runes.length
    · obtain ⟨m, hm⟩ : ∃ m, runes.length - i = m + 1 := ⟨runes.length - i - 1, by omega⟩
      have hm1 : runes.length - (i + 1) = m := by omega
      rw [hm]
      unfold parseLoop
      simp only [hi, dite_true]
      have key : ∀ (a : List Char) (j : Bool),
          parseLoop vm runes fuel (i + 1) a j = parseLoop vm runes m (i + 1) a j := by
        intro a j
        rw [ih (i + 1) a j (by omega), hm1]
      simp only [key]
    · have h0 : runes.length - i = 0 := by omega
      rw [h0]
      unfold parseLoop
      simp [hi]

/-- The result of `parseEmoji` in terms of the number of runes consumed. -/
theorem parseEmoji_run (vm : ModifierTable) (text : String) (startI : Nat) :
    ∃ n, n ≤ text.data.length - startI ∧
      parseLoop vm text.data (text.data.length - startI) startI [] false =
        (text.data.drop startI).take n ∧
      ((text.data.drop startI).take n).length = n := by
  obtain ⟨n, hn, hle⟩ := parseLoop_run vm text.data (text.data.length - startI) startI [] false
  refine ⟨n, hle, by simpa using hn, ?_⟩
  rw [List.length_take, List.length_drop]
  omega

/-- A non-empty result of `parseEmoji` is a run of `n > 0` runes from the
start index, returned with the index of its last rune. -/
theorem parseEmoji_span (vm : ModifierTable) (text : String) (startI : Nat)
    (h : (parseEmoji vm text startI).1 ≠ []) :
    ∃ n, 0 < n ∧ startI + n ≤ text.data.length ∧
      parseEmoji vm text startI = ((text.data.drop startI).take n, startI + n - 1) := by
  obtain ⟨n, hle, hn, hlen⟩ := parseEmoji_run vm text startI
  unfold parseEmoji at h ⊢
  simp only [hn, hlen] at h ⊢
  by_cases h0 : n = 0
  · simp [h0] at h
  · simp only [h0, if_false]
    exact ⟨n, by omega, by omega, rfl⟩

/-- C1: whenever `parseEmoji(text, startI)` returns a non-empty sequence,
that sequence is the contiguous run of the runes of the text from `startI` to
the returned `endIndex` inclusive, `endIndex = startI + len(sequence) - 1`,
and `startI ≤ endIndex < len(stringRunes)`. -/
theorem parseEmoji_contiguous (vm : ModifierTable) (text : String) (startI : Nat)
    (h : (parseEmoji vm text startI).1 ≠ []) :
    (parseEmoji vm text startI).1 =
        (text.data.drop startI).take ((parseEmoji vm text startI).2 + 1 - startI) ∧
      (parseEmoji vm text startI).2 = startI + (parseEmoji vm text startI).1.length - 1 ∧
      startI ≤ (parseEmoji vm text startI).2 ∧
      (parseEmoji vm text startI).2 < text.data.length := by
  obtain ⟨n, hle, hn, hlen⟩ := parseEmoji_run vm text startI
  unfold parseEmoji at h ⊢
  simp only [hn, hlen] at h ⊢
  by_cases h0 : n = 0
  · simp [h0] at h
  · simp only [h0, if_false]
    have e : startI + n - 1 + 1 - startI = n := by omega
    rw [e]
    refine ⟨rfl, by rw [hlen], by omega, by omega⟩

/-- Witness for C1: the one-rune sequence found at index 1 of `a😀`. -/
theorem parseEmoji_contiguous_witness :
    (parseEmoji (fun _ => []) (String.mk ['a', Char.ofNat 128512]) 1).1 ≠ [] ∧
      ((parseEmoji (fun _ => []) (String.mk ['a', Char.ofNat 128512]) 1).1 =
          ((String.mk ['a', Char.ofNat 128512]).data.drop 1).take
            ((parseEmoji (fun _ => []) (String.mk ['a', Char.ofNat 128512]) 1).2 + 1 - 1) ∧
        (parseEmoji (fun _ => []) (String.mk ['a', Char.ofNat 128512]) 1).2 =
          1 + (parseEmoji (fun _ => []) (String.mk ['a', Char.ofNat 128512]) 1).1.length - 1 ∧
        1 ≤ (parseEmoji (fun _ => []) (String.mk ['a', Char.ofNat 128512]) 1).2 ∧
        (parseEmoji (fun _ => []) (String.mk ['a', Char.ofNat 128512]) 1).2 <
          (String.mk ['a', Char.ofNat 128512]).data.length) :=
  ⟨by decide, parseEmoji_contiguous (fun _ => []) (String.mk ['a', Char.ofNat 128512]) 1
    (by decide)⟩

/-! ## The segmenter loop reaches its exit -/

/-- Every iteration of the segmenter loop advances the index. -/
theorem segStep_progress (vm : ModifierTable) (text : String) (st st' : SegState)
    (hstep : segStep vm text st = some st') : st.i < st'.i := by
  unfold segStep at hstep
  by_cases hi : st.i < text.data.length
  · simp only [hi, dite_true] at hstep
    split_ifs at hstep with h1 h2
    · cases hstep
      exact Nat.lt_succ_self _
    · cases hstep
      have hne : (parseEmoji vm text st.i).1 ≠ [] := fun h0 => h2 (by rw [h0]; rfl)
      obtain ⟨n, hn, _, hr⟩ := parseEmoji_span vm text st.i hne
      rw [hr]
      show st.i < st.i + n - 1 + 1
      omega
    · cases hstep
      exact Nat.lt_succ_self _
  · simp only [hi, dite_false] at hstep
    cases hstep

/-- After as many iterations as there are runes left the loop condition
fails: the bound `len(stringRunes)` of `segment` never cuts the loop short. -/
theorem segLoop_exits (vm : ModifierTable) (text : String) :
    ∀ (fuel : Nat) (st : SegState), text.data.length ≤ st.i + fuel →
      segStep vm text (segLoop vm text fuel st) = none := by
  intro fuel
  induction fuel with
  | zero =>
    intro st h
    unfold segStep segLoop
    simp only [Nat.not_lt.mpr (by omega : text.data.length ≤ st.i), dite_false]
  | succ fuel ih =>
    intro st h
    rw [segLoop]
    cases hstep : segStep vm text st with
    | none => exact hstep
    | some st' =>
      have := segStep_progress vm text st st' hstep
      exact ih st' (by omega)

/-! ## The placeholder count of the segmenter -/

/-- One iteration of the segmenter keeps the placeholder count equal to the
number of keys when the text itself holds no placeholder rune. -/
theorem segStep_count (vm : ModifierTable) (text : String)
    (hfree : replacementChar ∉ text.data) (st st' : SegState)
    (hstep : segStep vm text st = some st')
    (hinv : st.withoutEmojis.data.count replacementChar = st.emojisUsed.length) :
    st'.withoutEmojis.data.count replacementChar = st'.emojisUsed.length := by
  unfold segStep at hstep
  by_cases hi : st.i < text.data.length
  · simp only [hi, dite_true] at hstep
    have hne : text.data[st.i] ≠ replacementChar := by
      intro heq
      exact hfree (heq ▸ List.getElem_mem hi)
    split_ifs at hstep with h1 h2
    · cases hstep
      simpa using hinv
    · cases hstep
      simp [List.count_append, hinv]
    · cases hstep
      simp [List.count_append, hinv, List.count_singleton, hne]
  · simp only [hi, dite_false] at hstep
    cases hstep

/-- The same for any number of iterations. -/
theorem segLoop_count (vm : ModifierTable) (text : String)
    (hfree : replacementChar ∉ text.data) :
    ∀ (fuel : Nat) (st : SegState),
      st.withoutEmojis.data.count replacementChar = st.emojisUsed.length →
      (segLoop vm text fuel st).withoutEmojis.data.count replacementChar =
        (segLoop vm text fuel st).emojisUsed.length := by
  intro fuel
  induction fuel with
  | zero => intro st hinv; simpa [segLoop] using hinv
  | succ fuel ih =>
    intro st hinv
    unfold segLoop
    cases hstep : segStep vm text st with
    | none => simpa using hinv
    | some st' => exact ih st' (segStep_count vm text hfree st st' hstep hinv)

/-- C2, as the code has it: for an input text that holds no U+FFF5 of its
own, the number of placeholders in the normalized string equals the number of
asset keys after every number of iterations of the segmenter loop and at its
end. -/
theorem segmenter_placeholder_count (vm : ModifierTable) (text : String)
    (hfree : replacementChar ∉ text.data) :
    (∀ n : Nat,
        (segLoop vm text n segInit).withoutEmojis.data.count replacementChar =
          (segLoop vm text n segInit).emojisUsed.length) ∧
      (segment vm text).1.data.count replacementChar = (segment vm text).2.length :=
  ⟨fun n => segLoop_count vm text hfree n segInit rfl,
    segLoop_count vm text hfree text.length segInit rfl⟩

/-- Witness for C2 on the text `a😀`. -/
theorem segmenter_placeholder_count_witness :
    replacementChar ∉ (String.mk ['a', Char.ofNat 128512]).data ∧
      ((∀ n : Nat,
          (segLoop (fun _ => []) (String.mk ['a', Char.ofNat 128512]) n
              segInit).withoutEmojis.data.count replacementChar =
            (segLoop (fun _ => []) (String.mk ['a', Char.ofNat 128512]) n
              segInit).emojisUsed.length) ∧
        (segment (fun _ => []) (String.mk ['a', Char.ofNat 128512])).1.data.count
            replacementChar =
          (segment (fun _ => []) (String.mk ['a', Char.ofNat 128512])).2.length) :=
  ⟨by decide,
    segmenter_placeholder_count (fun _ => []) (String.mk ['a', Char.ofNat 128512])
      (by decide)⟩

/-- C2 as stated fails: a text that is the single rune U+FFF5 is copied
verbatim, so the normalized string holds one placeholder and the key list is
empty. -/
theorem segmenter_placeholder_count_fails :
    segment (fun _ => []) (String.mk [replacementChar]) =
        (String.mk [replacementChar], []) ∧
      (segment (fun _ => []) (String.mk [replacementChar])).1.data.count replacementChar ≠
        (segment (fun _ => []) (String.mk [replacementChar])).2.length := by
  decide

/-! ## The empty result of the tokenizer -/

/-- The loop of `parseEmoji` never shrinks its accumulator. -/
theorem parseLoop_length (vm : ModifierTable) (runes : List Char) (fuel i : Nat)
    (acc : List Char) (joined : Bool) :
    acc.length ≤ (parseLoop vm runes fuel i acc joined).length := by
  obtain ⟨n, hn, _⟩ := parseLoop_run vm runes fuel i acc joined
  rw [hn, List.length_append]
  omega

/-- The tokenizer returns the empty sequence with the start index itself when
the rune at the start index is the join character or no emoji candidate, or
when there is no such rune. -/
theorem parseEmoji_nothing (vm : ModifierTable) (text : String) (i : Nat)
    (h : ∀ c, text.data[i]? = some c → c = joinChar ∨ isEmoji c = false) :
    parseEmoji vm text i = ([], i) := by
  have hloop : parseLoop vm text.data (text.data.length - i) i [] false = [] := by
    by_cases hi : i < text.data.length
    · obtain ⟨m, hm⟩ : ∃ m, text.data.length - i = m + 1 :=
        ⟨text.data.length - i - 1, by omega⟩
      rw [hm]
      unfold parseLoop
      simp only [hi, dite_true]
      rcases h text.data[i] (List.getElem?_eq_getElem hi) with hj | he
      · simp [hj]
      · have hnj : text.data[i] ≠ joinChar := by
          intro hj
          rw [hj] at he
          exact absurd he (by decide)
        simp [hnj, he]
    · have h0 : text.data.length - i = 0 := by omega
      rw [h0]
      rfl
  unfold parseEmoji
  simp only [hloop, List.length_nil, if_true]

/-- The tokenizer returns a non-empty sequence when the rune at the start
index is an emoji candidate other than the join character. -/
theorem parseEmoji_something (vm : ModifierTable) (text : String) (i : Nat) (c : Char)
    (hc : text.data[i]? = some c) (hj : c ≠ joinChar) (he : isEmoji c = true) :
    (parseEmoji vm text i).1 ≠ [] := by
  obtain ⟨hi, hci⟩ := List.getElem?_eq_some.mp hc
  obtain ⟨m, hm⟩ : ∃ m, text.data.length - i = m + 1 :=
    ⟨text.data.length - i - 1, by omega⟩
  have hpos : 0 < (parseLoop vm text.data (text.data.length - i) i [] false).length := by
    rw [hm]
    unfold parseLoop
    simp only [hi, dite_true, hci, hj, he, if_true, if_false, List.length_nil, List.nil_append]
    exact Nat.lt_of_lt_of_le (by simp) (parseLoop_length vm text.data m (i + 1) [c] false)
  unfold parseEmoji
  intro hnil
  have hne : ¬ (parseLoop vm text.data (text.data.length - i) i [] false).length = 0 := by
    omega
  simp only [hne, if_false] at hnil
  rw [hnil] at hpos
  simp at hpos

/-- C5, as the code has it: at a start index `i` where no sequence starts (the
rune there is the join character, or is no emoji candidate, or `i` is past the
end of the text) `parseEmoji` returns the empty sequence together with
`endIndex = i`, the start index itself. -/
theorem parseEmoji_empty_endIndex (vm : ModifierTable) (text : String) (i : Nat)
    (h : ∀ c, text.data[i]? = some c → c = joinChar ∨ isEmoji c = false) :
    (parseEmoji vm text i).1 = [] ∧ (parseEmoji vm text i).2 = i := by
  rw [parseEmoji_nothing vm text i h]
  exact ⟨rfl, rfl⟩

/-- Witness for C5 at index 1 of the text `ab`. -/
theorem parseEmoji_empty_endIndex_witness :
    (∀ c, (String.mk ['a', 'b']).data[1]? = some c → c = joinChar ∨ isEmoji c = false) ∧
      ((parseEmoji (fun _ => []) (String.mk ['a', 'b']) 1).1 = [] ∧
        (parseEmoji (fun _ => []) (String.mk ['a', 'b']) 1).2 = 1) :=
  ⟨fun c hc => Or.inr (by
      have hb : c = 'b' := by simpa using hc.symm
      rw [hb]
      decide),
    parseEmoji_empty_endIndex (fun _ => []) (String.mk ['a', 'b']) 1 (fun c hc => Or.inr (by
      have hb : c = 'b' := by simpa using hc.symm
      rw [hb]
      decide))⟩

/-- C5 as stated fails: at index 1 of the text `ab` nothing is consumed and
the returned `endIndex` is 1, not `1 - 1`. -/
theorem parseEmoji_empty_endIndex_fails :
    parseEmoji (fun _ => []) (String.mk ['a', 'b']) 1 = ([], 1) ∧
      ((parseEmoji (fun _ => []) (String.mk ['a', 'b']) 1).2 : Int) ≠ (1 : Int) - 1 := by
  decide

/-- C3, as the code has it: when the rune at the loop index passes `isEmoji`
but `parseEmoji` returns the empty sequence, the iteration appends nothing to
the normalized string and nothing to the key list, and the scan goes on at
the next rune. -/
theorem segStep_empty_parse (vm : ModifierTable) (text : String) (st : SegState)
    (c : Char) (hc : text.data[st.i]? = some c) (he : isEmoji c = true)
    (hp : (parseEmoji vm text st.i).1 = []) :
    segStep vm text st =
      some { i := st.i + 1, withoutEmojis := st.withoutEmojis, emojisUsed := st.emojisUsed } := by
  obtain ⟨hi, hci⟩ := List.getElem?_eq_some.mp hc
  unfold segStep
  simp only [hi, dite_true, hci, he, if_true, hp, List.length_nil]

/-- Witness for C3: a join character at the start of the text. -/
theorem segStep_empty_parse_witness :
    (String.mk [joinChar, 'a']).data[segInit.i]? = some joinChar ∧
      isEmoji joinChar = true ∧
      (parseEmoji (fun _ => []) (String.mk [joinChar, 'a']) segInit.i).1 = [] ∧
      segStep (fun _ => []) (String.mk [joinChar, 'a']) segInit =
        some { i := segInit.i + 1, withoutEmojis := segInit.withoutEmojis,
               emojisUsed := segInit.emojisUsed } :=
  ⟨by decide, by decide, by decide,
    segStep_empty_parse (fun _ => []) (String.mk [joinChar, 'a']) segInit joinChar
      (by decide) (by decide) (by decide)⟩

/-- C3 as stated fails: a text that is a single join character passes
`isEmoji`, is given the empty sequence by `parseEmoji`, and is not copied to
the normalized string, which stays empty. -/
theorem segment_join_not_copied :
    isEmoji joinChar = true ∧
      (parseEmoji (fun _ => []) (String.mk [joinChar]) 0).1 = [] ∧
      segment (fun _ => []) (String.mk [joinChar]) = ("", []) ∧
      (segment (fun _ => []) (String.mk [joinChar])).1 ≠ String.mk [joinChar] := by
  decide

/-! ## The render loop after a failed asset -/

/-- C4 fails on the code: with two placeholders, keys `emoji_a.png` and
`emoji_b.png`, and a store that lacks the first file and holds the second,
both placeholders look up the first key, `emojiIndex` stays 0 and no image is
drawn for the second key. -/
theorem render_retries_failed_key :
    render (String.mk [replacementChar, replacementChar]) ["emoji_a.png", "emoji_b.png"]
        (fun name => if name = "data/emojis/emoji_b.png" then Asset.image else Asset.missing)
        (10 : Nat) (fun _ => 3) (fun v => Int.ofNat v) 0 256 =
      { x := 20, emojiIndex := 0,
        trace := [RenderEvent.loadError 0 "emoji_a.png",
                  RenderEvent.loadError 1 "emoji_a.png"] } := by
  decide

/-! ## The asset key: the code against the wording -/

/-- Lower-casing an upper-case digit of `fmt` gives the lower-case digit. -/
theorem toLower_upperHexDigit :
    ∀ d, d < 16 → (upperHexDigit d).toLower = Nat.digitChar d := by
  decide

/-- The digit loop of `%U`, lower-cased, is the digit loop of `Nat.toDigits`
for base sixteen whenever both have iterations to spare. -/
theorem hexLoop_toDigitsCore :
    ∀ (f1 n f2 : Nat) (acc : List Char), n < 16 ^ (f1 + 1) → n < f2 →
      (hexLoop (f1 + 1) n acc).map Char.toLower =
        Nat.toDigitsCore 16 f2 n (acc.map Char.toLower) := by
  intro f1
  induction f1 with
  | zero =>
    intro n f2 acc hn hf
    obtain ⟨g, rfl⟩ : ∃ g, f2 = g + 1 := ⟨f2 - 1, by omega⟩
    have h16 : n < 16 := by simpa using hn
    have hdiv : n / 16 = 0 := Nat.div_eq_of_lt h16
    have hmod : n % 16 = n := Nat.mod_eq_of_lt h16
    simp [hexLoop, Nat.toDigitsCore, Nat.not_le.mpr h16, hdiv, hmod,
      toLower_upperHexDigit n h16]
  | succ f1 ih =>
    intro n f2 acc hn hf
    obtain ⟨g, rfl⟩ : ∃ g, f2 = g + 1 := ⟨f2 - 1, by omega⟩
    by_cases h16 : 16 ≤ n
    · have hdiv : n / 16 ≠ 0 := by
        have : 0 < n / 16 := Nat.div_pos h16 (by decide)
        omega
      have hlt : n / 16 < 16 ^ (f1 + 1) := by
        rw [Nat.div_lt_iff_lt_mul (by decide)]
        calc n < 16 ^ (f1 + 1 + 1) := hn
          _ = 16 ^ (f1 + 1) * 16 := by rw [pow_succ]
      have hg : n / 16 < g := by
        have : n / 16 < n := Nat.div_lt_self (by omega) (by decide)
        omega
      have hrec := ih (n / 16) g (upperHexDigit (n % 16) :: acc) hlt hg
      rw [hexLoop, if_pos h16, hrec]
      simp [Nat.toDigitsCore, hdiv, toLower_upperHexDigit (n % 16) (Nat.mod_lt _ (by decide))]
    · have h16 : n < 16 := by omega
      have hdiv : n / 16 = 0 := Nat.div_eq_of_lt h16
      have hmod : n % 16 = n := Nat.mod_eq_of_lt h16
      simp [hexLoop, Nat.toDigitsCore, Nat.not_le.mpr h16, hdiv, hmod,
        toLower_upperHexDigit n h16]

/-- A rune is below `0x110000`. -/
theorem char_toNat_lt (c : Char) : c.toNat < 1114112 := by
  have hv := c.valid
  unfold Char.toNat
  rcases hv with h | ⟨_, h⟩ <;> omega

/-- The hexadecimal digits `%U` prints for a rune, lower-cased. -/
theorem hexLoop_char (c : Char) :
    (hexLoop 16 c.toNat []).map Char.toLower = Nat.toDigits 16 c.toNat := by
  have h := hexLoop_toDigitsCore 15 c.toNat (c.toNat + 1) []
    (Nat.lt_trans (char_toNat_lt c) (by norm_num)) (Nat.lt_succ_self _)
  simpa [Nat.toDigits] using h

/-- The lower-cased output of `%U` is `u+` followed by the hexadecimal form
of the specification. -/
theorem toLower_sprintfU (c : Char) :
    (stringsToLower (sprintfU c)).data = 'u' :: '+' :: (specHex c).data := by
  have hl : (hexLoop 16 c.toNat []).length = (Nat.toDigits 16 c.toNat).length := by
    rw [← hexLoop_char c, List.length_map]
  have hz : Char.toLower '0' = '0' := by decide
  have hU : Char.toLower 'U' = 'u' := by decide
  have hP : Char.toLower '+' = '+' := by decide
  simp only [stringsToLower, sprintfU, specHex, padZeros, List.map_cons, List.map_append,
    List.map_replicate, hexLoop_char, hl, hz, hU, hP]

/-- A digit character of base sixteen is a lower-case hexadecimal digit. -/
theorem digitChar_mem : ∀ d, d < 16 → Nat.digitChar d ∈ lowerHexChars := by
  decide

/-- Every character `Nat.toDigitsCore` produces in base sixteen is a
lower-case hexadecimal digit, the accumulator apart. -/
theorem toDigitsCore_mem :
    ∀ (fuel n : Nat) (ds : List Char), (∀ c ∈ ds, c ∈ lowerHexChars) →
      ∀ c ∈ Nat.toDigitsCore 16 fuel n ds, c ∈ lowerHexChars := by
  intro fuel
  induction fuel with
  | zero => intro n ds hds c hc; exact hds c (by simpa [Nat.toDigitsCore] using hc)
  | succ fuel ih =>
    intro n ds hds c hc
    have hcons : ∀ x ∈ Nat.digitChar (n % 16) :: ds, x ∈ lowerHexChars := by
      intro x hx
      rcases List.mem_cons.mp hx with rfl | hx
      · exact digitChar_mem _ (Nat.mod_lt _ (by decide))
      · exact hds x hx
    rw [Nat.toDigitsCore] at hc
    by_cases h0 : n / 16 = 0
    · simp only [h0, if_true] at hc
      exact hcons c hc
    · simp only [h0, if_false] at hc
      exact ih (n / 16) _ hcons c hc

/-- The hexadecimal form of the specification holds hexadecimal digits only. -/
theorem specHex_mem (c : Char) : ∀ x ∈ (specHex c).data, x ∈ lowerHexChars := by
  intro x hx
  simp only [specHex, List.mem_append, List.mem_replicate] at hx
  rcases hx with ⟨_, rfl⟩ | hx
  · decide
  · exact toDigitsCore_mem _ _ [] (by simp) x hx

/-- The hexadecimal form of the specification is never empty. -/
theorem specHex_ne_nil (c : Char) : (specHex c).data ≠ [] := by
  have h4 : 4 ≤ (specHex c).data.length := by
    simp only [specHex, List.length_append, List.length_replicate]
    omega
  intro hnil
  rw [hnil] at h4
  simp at h4

/-- Replacement leaves alone a list that lacks the first rune of `old`. -/
theorem replaceRunes_absent (o : Char) (os new : List Char) :
    ∀ l : List Char, o ∉ l → replaceRunes (o :: os) new 0 l = l := by
  intro l
  induction l with
  | nil => intro _; rfl
  | cons c cs ih =>
    intro hmem
    have hc : o ≠ c := fun h => hmem (h ▸ List.mem_cons_self _ _)
    have hcs : o ∉ cs := fun h => hmem (List.mem_cons_of_mem _ h)
    rw [replaceRunes, List.isPrefixOf_cons₂]
    simp [hc, ih hcs]

/-- The function `getCharUnicode` gives `u` followed by the hexadecimal form
of the specification. -/
theorem getCharUnicode_eq (c : Char) : getCharUnicode c = "u" ++ specHex c := by
  have hu : 'u' ∉ (specHex c).data := by
    intro h
    exact absurd (specHex_mem c _ h) (by decide)
  apply String.ext
  simp only [getCharUnicode, stringsReplaceAll, toLower_sprintfU, String.data_append]
  show replaceRunes ['u', '+'] ['u'] 0 ('u' :: '+' :: (specHex c).data) = 'u' :: (specHex c).data
  rw [replaceRunes]
  simp only [List.isPrefixOf_cons₂, List.isPrefixOf, beq_self_eq_true, Bool.and_self, if_true]
  show 'u' :: replaceRunes ['u', '+'] ['u'] 1 ('+' :: (specHex c).data) = _
  rw [replaceRunes, replaceRunes_absent 'u' ['+'] ['u'] _ hu]

/-- Stripping the `u` of `getCharUnicode` leaves the hexadecimal form of the
specification. -/
theorem getCharUnicode_strip (c : Char) :
    stringsReplaceAll (getCharUnicode c) "u" "" = specHex c := by
  have hu : 'u' ∉ (specHex c).data := by
    intro h
    exact absurd (specHex_mem c _ h) (by decide)
  apply String.ext
  rw [getCharUnicode_eq]
  simp only [stringsReplaceAll, String.data_append]
  show replaceRunes ['u'] [] 0 ('u' :: (specHex c).data) = (specHex c).data
  rw [replaceRunes]
  simp only [List.isPrefixOf_cons₂, List.isPrefixOf, beq_self_eq_true, Bool.and_self, if_true]
  show replaceRunes ['u'] [] 0 (specHex c).data = _
  exact replaceRunes_absent 'u' [] [] _ hu

/-- The loop of `buildEmojiFilename` past the first rune joins the
hexadecimal forms with `_`, as `String.intercalate` does. -/
theorem filenameLoop_later :
    ∀ (rest : List Char) (i : Nat) (acc : String) (c : Char), i ≠ 0 →
      filenameLoop (i + (rest.length + 1)) i (c :: rest) acc =
        String.intercalate.go (acc ++ specHex c) "_" (rest.map specHex) := by
  intro rest
  induction rest with
  | nil =>
    intro i acc c hi
    have hlast : ¬ (i ≠ i + (0 + 1) - 1) := by simp
    simp only [filenameLoop, List.length_nil, hi, hlast, if_true, if_false, ne_eq,
      not_false_eq_true, getCharUnicode_strip, List.map_nil, String.intercalate.go]
  | cons d rest ih =>
    intro i acc c hi
    have hlast : i ≠ i + ((d :: rest).length + 1) - 1 := by
      simp only [List.length_cons]
      omega
    have hlen : i + ((d :: rest).length + 1) = (i + 1) + (rest.length + 1) := by
      simp only [List.length_cons]
      omega
    rw [filenameLoop]
    simp only [hi, hlast, if_true, ne_eq, not_false_eq_true, getCharUnicode_strip]
    rw [hlen, ih (i + 1) _ d (by omega)]
    simp only [List.map_cons, String.intercalate.go]

/-- The loop of `buildEmojiFilename` from its start. -/
theorem filenameLoop_first (c : Char) (rest : List Char) :
    filenameLoop (rest.length + 1) 0 (c :: rest) "" =
      String.intercalate "_" (specTokens (c :: rest)) := by
  cases rest with
  | nil =>
    simp only [filenameLoop, List.length_nil, ne_eq, not_true_eq_false, if_false,
      getCharUnicode_eq, specTokens, List.map_nil, String.intercalate, String.intercalate.go]
    apply String.ext
    simp [String.data_append]
  | cons d rest =>
    have hlast : (0 : Nat) ≠ (d :: rest).length + 1 - 1 := by
      simp only [List.length_cons]
      omega
    have hlen : (d :: rest).length + 1 = (0 + 1) + (rest.length + 1) := by
      simp only [List.length_cons]
      omega
    rw [filenameLoop]
    simp only [hlast, if_true, if_false, ne_eq, not_true_eq_false, not_false_eq_true,
      getCharUnicode_eq]
    rw [hlen, filenameLoop_later rest (0 + 1) _ d (by omega)]
    simp only [specTokens, List.map_cons, String.intercalate, String.intercalate.go]
    have e : ("" : String) ++ ("u" ++ specHex c) = "u" ++ specHex c :=
      String.ext (by simp [String.data_append])
    rw [e]

/-- The loop of `buildEmojiFilename` around its accumulator: the asset key
is `emoji_`, the joined tokens and `.png`. -/
theorem buildEmojiFilename_tokens (sequence : List Char) :
    buildEmojiFilename sequence =
      "emoji_" ++ String.intercalate "_" (specTokens sequence) ++ ".png" := by
  cases sequence with
  | nil => rfl
  | cons c rest =>
    unfold buildEmojiFilename
    rw [List.length_cons, filenameLoop_first]

/-- C6: `buildEmojiFilename` returns `emoji_`, the tokens joined with `_`, and
`.png`, the first token being `u` followed by the lower-case hexadecimal form
of the first rune padded to at least four digits and every later token the
hexadecimal form alone.  It holds for every sequence, the non-empty ones of
the claim included. -/
theorem buildEmojiFilename_eq_spec (sequence : List Char) :
    buildEmojiFilename sequence = specFilename sequence := by
  cases sequence with
  | nil => rfl
  | cons c rest =>
    unfold buildEmojiFilename specFilename
    rw [List.length_cons, filenameLoop_first]

/-! ## The asset key determines the sequence -/

/-- Reading back a digit character of base sixteen. -/
theorem hexDigitValue_digitChar : ∀ d, d < 16 → hexDigitValue (Nat.digitChar d) = d := by
  decide

/-- Reading the digits `Nat.toDigitsCore` puts before an accumulator amounts
to starting the reading of the accumulator from the number itself. -/
theorem foldl_toDigitsCore :
    ∀ (fuel n : Nat) (ds : List Char), n < fuel →
      (Nat.toDigitsCore 16 fuel n ds).foldl (fun v c => 16 * v + hexDigitValue c) 0 =
        ds.foldl (fun v c => 16 * v + hexDigitValue c) n := by
  intro fuel
  induction fuel with
  | zero => intro n ds h; omega
  | succ fuel ih =>
    intro n ds h
    rw [Nat.toDigitsCore]
    by_cases h0 : n / 16 = 0
    · have hlt : n < 16 := by
        by_contra hge
        have : 0 < n / 16 := Nat.div_pos (by omega) (by decide)
        omega
      simp only [h0, if_true, List.foldl_cons, Nat.mod_eq_of_lt hlt,
        hexDigitValue_digitChar n hlt]
      simp
    · have hlt : n / 16 < fuel := by
        have : n / 16 < n := Nat.div_lt_self (by
          by_contra hn
          have : n = 0 := by omega
          simp [this] at h0) (by decide)
        omega
      simp only [h0, if_false]
      rw [ih (n / 16) _ hlt, List.foldl_cons,
        hexDigitValue_digitChar _ (Nat.mod_lt n (by decide)), Nat.div_add_mod]

/-- Leading zeros do not change the value read. -/
theorem foldl_zeros (k : Nat) :
    (List.replicate k '0').foldl (fun v c => 16 * v + hexDigitValue c) 0 = 0 := by
  induction k with
  | zero => rfl
  | succ k ih =>
    rw [List.replicate_succ, List.foldl_cons]
    exact ih

/-- The hexadecimal form of the specification reads back as the rune. -/
theorem hexValue_specHex (c : Char) : hexValue (specHex c).data = c.toNat := by
  simp only [hexValue, specHex, List.foldl_append, foldl_zeros, Nat.toDigits]
  rw [foldl_toDigitsCore _ _ _ (Nat.lt_succ_self _)]
  rfl

/-- The hexadecimal form determines the rune. -/
theorem specHex_data_inj (a b : Char) (h : (specHex a).data = (specHex b).data) : a = b := by
  have hv : a.toNat = b.toNat := by
    rw [← hexValue_specHex a, ← hexValue_specHex b, h]
  rw [← Char.ofNat_toNat a, ← Char.ofNat_toNat b, hv]

/-- Two runs of characters with a property, each followed by nothing or by a
character without it, are equal when the whole lists are. -/
theorem append_split {α : Type} (P : α → Prop) :
    ∀ (l1 l2 r1 r2 : List α), (∀ x ∈ l1, P x) → (∀ x ∈ l2, P x) →
      (∀ x, r1.head? = some x → ¬ P x) → (∀ x, r2.head? = some x → ¬ P x) →
      l1 ++ r1 = l2 ++ r2 → l1 = l2 ∧ r1 = r2 := by
  intro l1
  induction l1 with
  | nil =>
    intro l2 r1 r2 _ h2 hr1 _ h
    cases l2 with
    | nil => exact ⟨rfl, by simpa using h⟩
    | cons y l2 =>
      have hr : r1 = y :: (l2 ++ r2) := by simpa using h
      exact absurd (h2 y (List.mem_cons_self _ _)) (hr1 y (by rw [hr]; rfl))
  | cons x l1 ih =>
    intro l2 r1 r2 h1 h2 hr1 hr2 h
    cases l2 with
    | nil =>
      have hr : r2 = x :: (l1 ++ r1) := by simpa using h.symm
      exact absurd (h1 x (List.mem_cons_self _ _)) (hr2 x (by rw [hr]; rfl))
    | cons y l2 =>
      simp only [List.cons_append, List.cons.injEq] at h
      obtain ⟨hxy, hrest⟩ := h
      obtain ⟨hl, hr⟩ := ih l2 r1 r2 (fun z hz => h1 z (List.mem_cons_of_mem _ hz))
        (fun z hz => h2 z (List.mem_cons_of_mem _ hz)) hr1 hr2 hrest
      exact ⟨by rw [hxy, hl], hr⟩

/-- What follows a token is the end of the tokens or a `_`, which is no
hexadecimal digit. -/
theorem specTail_head (rest : List Char) :
    ∀ x, (specTail rest).head? = some x → ¬ x ∈ lowerHexChars := by
  intro x hx
  cases rest with
  | nil => simp [specTail] at hx
  | cons d rest =>
    have hx' : x = '_' := by simpa [specTail] using hx.symm
    rw [hx']
    decide

/-- The tokens after the first determine the runes after the first. -/
theorem specTail_inj : ∀ r1 r2 : List Char, specTail r1 = specTail r2 → r1 = r2 := by
  intro r1
  induction r1 with
  | nil =>
    intro r2 h
    cases r2 with
    | nil => rfl
    | cons d r2 => simp [specTail] at h
  | cons d1 r1 ih =>
    intro r2 h
    cases r2 with
    | nil => simp [specTail] at h
    | cons d2 r2 =>
      simp only [specTail, List.cons_append, List.cons.injEq, true_and] at h
      obtain ⟨hd, hr⟩ := append_split (fun x => x ∈ lowerHexChars) _ _ _ _
        (specHex_mem d1) (specHex_mem d2) (specTail_head r1) (specTail_head r2) h
      rw [specHex_data_inj d1 d2 hd, ih r2 hr]

/-- The runes `String.intercalate` yields for the later tokens. -/
theorem intercalate_go_data :
    ∀ (rest : List Char) (acc : String),
      (String.intercalate.go acc "_" (rest.map specHex)).data = acc.data ++ specTail rest := by
  intro rest
  induction rest with
  | nil => intro acc; simp [String.intercalate.go, specTail]
  | cons d rest ih =>
    intro acc
    rw [List.map_cons, String.intercalate.go, ih]
    simp only [String.data_append, specTail, List.append_assoc]
    rfl

/-- The runes of the asset key of a non-empty sequence. -/
theorem buildEmojiFilename_data (c : Char) (rest : List Char) :
    (buildEmojiFilename (c :: rest)).data =
      "emoji_u".data ++ ((specHex c).data ++ specTail rest) ++ ".png".data := by
  rw [buildEmojiFilename_tokens]
  simp only [specTokens, String.intercalate, String.data_append,
    intercalate_go_data, List.append_assoc]
  rfl

/-- C8: `buildEmojiFilename` is injective on non-empty sequences: two
non-empty sequences with the same asset key are the same sequence. -/
theorem buildEmojiFilename_injective (s t : List Char) (hs : s ≠ []) (ht : t ≠ [])
    (h : buildEmojiFilename s = buildEmojiFilename t) : s = t := by
  cases s with
  | nil => exact absurd rfl hs
  | cons a r1 =>
    cases t with
    | nil => exact absurd rfl ht
    | cons b r2 =>
      have hd := congrArg String.data h
      rw [buildEmojiFilename_data, buildEmojiFilename_data] at hd
      have hbody := List.append_cancel_left (List.append_cancel_right hd)
      obtain ⟨hab, hr⟩ := append_split (fun x => x ∈ lowerHexChars) _ _ _ _
        (specHex_mem a) (specHex_mem b) (specTail_head r1) (specTail_head r2) hbody
      rw [specHex_data_inj a b hab, specTail_inj r1 r2 hr]

/-- Witness for C8 on the flag pair U+1F1FA U+1F1F8. -/
theorem buildEmojiFilename_injective_witness :
    [Char.ofNat 127482, Char.ofNat 127480] ≠ [] ∧
      buildEmojiFilename [Char.ofNat 127482, Char.ofNat 127480] =
        buildEmojiFilename [Char.ofNat 127482, Char.ofNat 127480] ∧
      [Char.ofNat 127482, Char.ofNat 127480] = [Char.ofNat 127482, Char.ofNat 127480] :=
  ⟨by decide, rfl,
    buildEmojiFilename_injective [Char.ofNat 127482, Char.ofNat 127480]
      [Char.ofNat 127482, Char.ofNat 127480] (by decide) (by decide) rfl⟩

/-! ## The end-to-end example -/

/-- C7, as the code has it: segmenting `hi` followed by U+1F600 yields `hi`
followed by one placeholder and the key list `["emoji_u1f600.png"]`, whatever
the modifier table; the key of a one-rune sequence is `emoji_u`, its
hexadecimal form and `.png`. -/
theorem segment_hi_grinning :
    (∀ vm : ModifierTable,
        segment vm (String.mk ['h', 'i', Char.ofNat 128512]) =
          (String.mk ['h', 'i', replacementChar], ["emoji_u1f600.png"])) ∧
      (∀ c : Char, buildEmojiFilename [c] = "emoji_" ++ ("u" ++ specHex c) ++ ".png") := by
  constructor
  · intro vm
    rfl
  · intro c
    rw [buildEmojiFilename_tokens]
    rfl

/-- C7 as stated fails: the key list for `hi` followed by U+1F600 is not
`["emoji_1f600.png"]`, the first token keeps its `u`. -/
theorem segment_hi_grinning_fails :
    segment (fun _ => []) (String.mk ['h', 'i', Char.ofNat 128512]) ≠
      (String.mk ['h', 'i', replacementChar], ["emoji_1f600.png"]) := by
  decide

/-! ## Single iterations of the tokenizer loop -/

/-- The first emoji candidate other than the join character opens the
sequence. -/
theorem parseLoop_first (vm : ModifierTable) (runes : List Char) (fuel i : Nat) (c : Char)
    (joined : Bool) (hc : runes[i]? = some c) (hj : c ≠ joinChar) (he : isEmoji c = true) :
    parseLoop vm runes (fuel + 1) i [] joined = parseLoop vm runes fuel (i + 1) [c] joined := by
  obtain ⟨hi, hci⟩ := List.getElem?_eq_some.mp hc
  rw [parseLoop]
  simp only [hi, dite_true, hci, hj, he, if_true, if_false, List.length_nil, List.nil_append]

/-- A second candidate that forms a modifier pair with the rune before it is
appended and sets `joinedLastChar`. -/
theorem parseLoop_pair (vm : ModifierTable) (runes : List Char) (fuel i : Nat) (a b : Char)
    (acc : List Char) (ha : runes[i]? = some a) (hb : runes[i + 1]? = some b)
    (hacc : acc ≠ []) (haj : a ≠ joinChar) (has : isSkinToneModifier a = false)
    (hbj : b ≠ joinChar) (hbe : isEmoji b = true) (hbs : isSkinToneModifier b = false)
    (hp : isModifierPair vm a b = true) :
    parseLoop vm runes (fuel + 1) (i + 1) acc false =
      parseLoop vm runes fuel (i + 2) (acc ++ [b]) true := by
  obtain ⟨hi, hai⟩ := List.getElem?_eq_some.mp ha
  obtain ⟨hi1, hbi⟩ := List.getElem?_eq_some.mp hb
  have hlen : ¬ acc.length = 0 := by
    intro h0
    exact hacc (List.length_eq_zero.mp h0)
  rw [parseLoop]
  simp only [hi1, dite_true, hbi, hbj, hbe, if_true, if_false, hlen, Nat.add_sub_cancel, hai,
    has, haj, hbs, hp, ne_eq, Nat.add_one_ne_zero, not_false_eq_true, true_and, and_false,
    and_true, Bool.false_eq_true]

/-- With `joinedLastChar` set and a non-empty sequence, the loop stops at
anything but a join character. -/
theorem parseLoop_joined_stop (vm : ModifierTable) (runes : List Char) (fuel i : Nat)
    (acc : List Char) (hacc : acc ≠ []) (hnext : ∀ c, runes[i]? = some c → c ≠ joinChar) :
    parseLoop vm runes fuel i acc true = acc := by
  have hlen : ¬ acc.length = 0 := by
    intro h0
    exact hacc (List.length_eq_zero.mp h0)
  cases fuel with
  | zero => rfl
  | succ fuel =>
    rw [parseLoop]
    by_cases hi : i < runes.length
    · have hj := hnext runes[i] (List.getElem?_eq_getElem hi)
      simp only [hi, dite_true, hj, if_false, hlen, if_true]
      split_ifs <;> rfl
    · simp only [hi, dite_false]

/-- A modifier pair at indices `i`, `i + 1` that is not followed by a join
character is returned as the two-rune sequence, with `endIndex = i + 1`. -/
theorem parseEmoji_pair (vm : ModifierTable) (text : String) (i : Nat) (a b : Char)
    (ha : text.data[i]? = some a) (hb : text.data[i + 1]? = some b)
    (haj : a ≠ joinChar) (hae : isEmoji a = true) (has : isSkinToneModifier a = false)
    (hbj : b ≠ joinChar) (hbe : isEmoji b = true) (hbs : isSkinToneModifier b = false)
    (hp : isModifierPair vm a b = true)
    (hnext : ∀ c, text.data[i + 2]? = some c → c ≠ joinChar) :
    parseEmoji vm text i = ([a, b], i + 1) := by
  obtain ⟨hi1, _⟩ := List.getElem?_eq_some.mp hb
  obtain ⟨m, hm⟩ : ∃ m, text.data.length - i = m + 1 + 1 :=
    ⟨text.data.length - i - 2, by omega⟩
  have hloop : parseLoop vm text.data (text.data.length - i) i [] false = [a, b] := by
    rw [hm, parseLoop_first vm text.data (m + 1) i a false ha haj hae,
      parseLoop_pair vm text.data m i a b [a] ha hb (by simp) haj has hbj hbe hbs hp,
      parseLoop_joined_stop vm text.data m (i + 2) _ (by simp) hnext]
    rfl
  unfold parseEmoji
  simp only [hloop]
  rfl

/-! ## Runs of ordinary text in the segmenter -/

/-- Past the end of the text the segmenter loop has left. -/
theorem segStep_done (vm : ModifierTable) (text : String) (st : SegState)
    (h : text.data.length ≤ st.i) : segStep vm text st = none := by
  unfold segStep
  simp only [Nat.not_lt.mpr h, dite_false]

/-- Once the loop has left, further iterations change nothing. -/
theorem segLoop_done (vm : ModifierTable) (text : String) (fuel : Nat) (st : SegState)
    (h : segStep vm text st = none) : segLoop vm text fuel st = st := by
  cases fuel with
  | zero => rfl
  | succ fuel => rw [segLoop, h]

/-- Iterations of the segmenter loop compose. -/
theorem segLoop_add (vm : ModifierTable) (text : String) :
    ∀ (m n : Nat) (st : SegState),
      segLoop vm text (m + n) st = segLoop vm text n (segLoop vm text m st) := by
  intro m
  induction m with
  | zero => intro n st; rw [Nat.zero_add]; rfl
  | succ m ih =>
    intro n st
    rw [Nat.add_right_comm, segLoop]
    cases hstep : segStep vm text st with
    | none =>
      simp only [segLoop, hstep]
      exact (segLoop_done vm text n st hstep).symm
    | some st' =>
      simp only [segLoop, hstep]
      exact ih n st'

/-- An ordinary rune is copied and the index advances by one. -/
theorem segStep_copy (vm : ModifierTable) (text : String) (st : SegState) (c : Char)
    (hc : text.data[st.i]? = some c) (he : isEmoji c = false) :
    segStep vm text st =
      some { i := st.i + 1, withoutEmojis := st.withoutEmojis ++ String.singleton c,
             emojisUsed := st.emojisUsed } := by
  obtain ⟨hi, hci⟩ := List.getElem?_eq_some.mp hc
  unfold segStep
  simp only [hi, dite_true, hci, he, if_false, Bool.false_eq_true]

/-- A non-empty sequence is replaced by one placeholder and one key, and the
index moves past the sequence. -/
theorem segStep_emoji (vm : ModifierTable) (text : String) (st : SegState) (c : Char)
    (hc : text.data[st.i]? = some c) (he : isEmoji c = true)
    (hp : (parseEmoji vm text st.i).1 ≠ []) :
    segStep vm text st =
      some { i := (parseEmoji vm text st.i).2 + 1,
             withoutEmojis := st.withoutEmojis ++ String.singleton replacementChar,
             emojisUsed := st.emojisUsed ++ [buildEmojiFilename (parseEmoji vm text st.i).1] } := by
  obtain ⟨hi, hci⟩ := List.getElem?_eq_some.mp hc
  have hlen : ¬ (parseEmoji vm text st.i).1.length = 0 := by
    intro h0
    exact hp (List.length_eq_zero.mp h0)
  unfold segStep
  simp only [hi, dite_true, hci, he, if_true, hlen, if_false]

/-- A run of ordinary runes at the loop index is copied rune by rune. -/
theorem segLoop_copy (vm : ModifierTable) (text : String) :
    ∀ (run pre post : List Char) (st : SegState),
      text.data = pre ++ run ++ post → st.i = pre.length →
      (∀ c ∈ run, isEmoji c = false) →
      segLoop vm text run.length st =
        { i := st.i + run.length, withoutEmojis := st.withoutEmojis ++ String.mk run,
          emojisUsed := st.emojisUsed } := by
  intro run
  induction run with
  | nil =>
    intro pre post st _ _ _
    cases st
    simp only [List.length_nil, segLoop, Nat.add_zero, SegState.mk.injEq, true_and, and_true]
    exact String.ext (by simp [String.data_append])
  | cons c run ih =>
    intro pre post st htext hi hrun
    have hc : text.data[st.i]? = some c := by
      rw [htext, hi, List.append_assoc, List.getElem?_append_right (Nat.le_refl _)]
      simp
    have hstep := segStep_copy vm text st c hc (hrun c (List.mem_cons_self _ _))
    rw [List.length_cons, segLoop, hstep]
    simp only
    rw [ih (pre ++ [c]) post _ (by rw [htext]; simp) (by simp [hi])
      (fun x hx => hrun x (List.mem_cons_of_mem _ hx))]
    simp only [SegState.mk.injEq, and_true]
    refine ⟨by omega, String.ext ?_⟩
    simp [String.data_append]

/-- C9: for an input text none of whose runes passes `isEmoji`, the segmenter
yields a normalized string identical to the input and an empty key list. -/
theorem segment_no_emoji (vm : ModifierTable) (text : String)
    (h : ∀ c ∈ text.data, isEmoji c = false) : segment vm text = (text, []) := by
  have hrun := segLoop_copy vm text text.data [] [] segInit (by simp) rfl h
  unfold segment
  have hlen : text.length = text.data.length := rfl
  rw [hlen, hrun]
  simp only [segInit, Prod.mk.injEq, and_true]
  exact String.ext (by simp [String.data_append])

/-- Witness for C9 on the text `hello`. -/
theorem segment_no_emoji_witness :
    (∀ c ∈ (String.mk ['h', 'e', 'l', 'l', 'o']).data, isEmoji c = false) ∧
      segment (fun _ => []) (String.mk ['h', 'e', 'l', 'l', 'o']) =
        (String.mk ['h', 'e', 'l', 'l', 'o'], []) :=
  ⟨by decide,
    segment_no_emoji (fun _ => []) (String.mk ['h', 'e', 'l', 'l', 'o']) (by decide)⟩

/-! ## A modifier pair between two runs of ordinary text -/

/-- The segmenter loop on ordinary text, a modifier pair, ordinary text. -/
theorem segLoop_pair_between (vm : ModifierTable) (text : String) (p s : List Char)
    (a b : Char) (htext : text.data = p ++ [a, b] ++ s)
    (haj : a ≠ joinChar) (hae : isEmoji a = true) (has : isSkinToneModifier a = false)
    (hbj : b ≠ joinChar) (hbe : isEmoji b = true) (hbs : isSkinToneModifier b = false)
    (hpair : isModifierPair vm a b = true)
    (hp : ∀ c ∈ p, isEmoji c = false) (hs : ∀ c ∈ s, isEmoji c = false) :
    segLoop vm text text.data.length segInit =
      { i := p.length + 2 + s.length,
        withoutEmojis := String.mk (p ++ [replacementChar] ++ s),
        emojisUsed := [buildEmojiFilename [a, b]] } := by
  have hlen : text.data.length = p.length + (1 + (s.length + 1)) := by
    rw [htext]
    simp only [List.length_append, List.length_cons, List.length_nil]
    omega
  have ha : text.data[p.length]? = some a := by
    rw [htext, List.append_assoc, List.getElem?_append_right (Nat.le_refl _)]
    simp
  have hb : text.data[p.length + 1]? = some b := by
    rw [htext, List.append_assoc, List.getElem?_append_right (by omega)]
    simp
  have hnext : ∀ c, text.data[p.length + 2]? = some c → c ≠ joinChar := by
    intro c hc hj
    rw [htext, List.append_assoc, List.getElem?_append_right (by omega)] at hc
    have h2 : p.length + 2 - p.length = 2 := by omega
    rw [h2] at hc
    have hmem : c ∈ s := @List.getElem?_mem _ s 0 c (by simpa using hc)
    have hne := hs c hmem
    rw [hj] at hne
    exact absurd hne (by decide)
  have hparse := parseEmoji_pair vm text p.length a b ha hb haj hae has hbj hbe hbs hpair hnext
  have h1 : segLoop vm text p.length segInit =
      { i := p.length, withoutEmojis := String.mk p, emojisUsed := [] } := by
    rw [segLoop_copy vm text p [] ([a, b] ++ s) segInit (by rw [htext]; simp) rfl hp]
    simp only [segInit, Nat.zero_add, SegState.mk.injEq, true_and, and_true]
    exact String.ext (by simp [String.data_append])
  have h2 : segStep vm text { i := p.length, withoutEmojis := String.mk p, emojisUsed := [] } =
      some { i := p.length + 2, withoutEmojis := String.mk (p ++ [replacementChar]),
             emojisUsed := [buildEmojiFilename [a, b]] } := by
    rw [segStep_emoji vm text _ a ha hae (by rw [hparse]; simp)]
    simp only [hparse, List.nil_append, Option.some.injEq, SegState.mk.injEq, true_and, and_true]
    exact String.ext (by simp [String.data_append])
  have h3 : segLoop vm text s.length
      { i := p.length + 2, withoutEmojis := String.mk (p ++ [replacementChar]),
        emojisUsed := [buildEmojiFilename [a, b]] } =
      { i := p.length + 2 + s.length,
        withoutEmojis := String.mk (p ++ [replacementChar] ++ s),
        emojisUsed := [buildEmojiFilename [a, b]] } := by
    rw [segLoop_copy vm text s (p ++ [a, b]) [] _ (by rw [htext]; simp) (by simp) hs]
    simp only [SegState.mk.injEq, true_and, and_true]
    exact String.ext (by simp [String.data_append])
  have h4 : segStep vm text
      { i := p.length + 2 + s.length,
        withoutEmojis := String.mk (p ++ [replacementChar] ++ s),
        emojisUsed := [buildEmojiFilename [a, b]] } = none :=
    segStep_done vm text _ (by simp only [hlen]; omega)
  have h2' : segLoop vm text 1
      { i := p.length, withoutEmojis := String.mk p, emojisUsed := [] } =
      { i := p.length + 2, withoutEmojis := String.mk (p ++ [replacementChar]),
        emojisUsed := [buildEmojiFilename [a, b]] } := by
    rw [segLoop, h2]
    rfl
  rw [hlen, segLoop_add, h1, segLoop_add, h2', segLoop_add, h3, segLoop_done vm text 1 _ h4]

/-- C10, as the code has it: for a pair `(a, b)` of emoji candidates in the
modifier table, neither the join character nor a skin-tone modifier, and a
prefix `p` and suffix `s` that hold no emoji candidate and no U+FFF5,
segmenting `p + a + b + s` yields `p + U+FFF5 + s`, of length
`len(p) + 1 + len(s)`, with exactly one placeholder and the one-element key
list `[buildEmojiFilename([a, b])]`. -/
theorem segment_pair (vm : ModifierTable) (p s : List Char) (a b : Char)
    (haj : a ≠ joinChar) (hae : isEmoji a = true) (has : isSkinToneModifier a = false)
    (hbj : b ≠ joinChar) (hbe : isEmoji b = true) (hbs : isSkinToneModifier b = false)
    (hpair : isModifierPair vm a b = true)
    (hp : ∀ c ∈ p, isEmoji c = false ∧ c ≠ replacementChar)
    (hs : ∀ c ∈ s, isEmoji c = false ∧ c ≠ replacementChar) :
    segment vm (String.mk (p ++ [a, b] ++ s)) =
        (String.mk (p ++ [replacementChar] ++ s), [buildEmojiFilename [a, b]]) ∧
      (segment vm (String.mk (p ++ [a, b] ++ s))).1.length = p.length + 1 + s.length ∧
      (segment vm (String.mk (p ++ [a, b] ++ s))).1.data.count replacementChar = 1 := by
  have hloop := segLoop_pair_between vm (String.mk (p ++ [a, b] ++ s)) p s a b rfl
    haj hae has hbj hbe hbs hpair (fun c hc => (hp c hc).1) (fun c hc => (hs c hc).1)
  have hseg : segment vm (String.mk (p ++ [a, b] ++ s)) =
      (String.mk (p ++ [replacementChar] ++ s), [buildEmojiFilename [a, b]]) := by
    unfold segment
    have hl : (String.mk (p ++ [a, b] ++ s)).length =
        (String.mk (p ++ [a, b] ++ s)).data.length := rfl
    rw [hl, hloop]
  have hcp : p.count replacementChar = 0 :=
    List.count_eq_zero.mpr (fun hmem => (hp _ hmem).2 rfl)
  have hcs : s.count replacementChar = 0 :=
    List.count_eq_zero.mpr (fun hmem => (hs _ hmem).2 rfl)
  rw [hseg]
  refine ⟨rfl, ?_, ?_⟩
  · show (p ++ [replacementChar] ++ s).length = _
    simp only [List.length_append, List.length_cons, List.length_nil]
  · show (p ++ [replacementChar] ++ s).count replacementChar = 1
    simp only [List.count_append, hcp, hcs, List.count_singleton, beq_self_eq_true, if_true]

/-- Witness for C10: `hello`, the flag pair U+1F1FA U+1F1F8, `world`; the
normalized string has length `5 + 1 + 5`. -/
theorem segment_pair_witness :
    (regionalU ≠ joinChar ∧ isEmoji regionalU = true ∧ isSkinToneModifier regionalU = false ∧
        regionalS ≠ joinChar ∧ isEmoji regionalS = true ∧
        isSkinToneModifier regionalS = false ∧
        isModifierPair flagTable regionalU regionalS = true ∧
        (∀ c ∈ ['h', 'e', 'l', 'l', 'o'], isEmoji c = false ∧ c ≠ replacementChar) ∧
        (∀ c ∈ ['w', 'o', 'r', 'l', 'd'], isEmoji c = false ∧ c ≠ replacementChar)) ∧
      (segment flagTable (String.mk (['h', 'e', 'l', 'l', 'o'] ++ [regionalU, regionalS] ++
            ['w', 'o', 'r', 'l', 'd'])) =
          (String.mk (['h', 'e', 'l', 'l', 'o'] ++ [replacementChar] ++
            ['w', 'o', 'r', 'l', 'd']), [buildEmojiFilename [regionalU, regionalS]]) ∧
        (segment flagTable (String.mk (['h', 'e', 'l', 'l', 'o'] ++ [regionalU, regionalS] ++
            ['w', 'o', 'r', 'l', 'd']))).1.length = 5 + 1 + 5 ∧
        (segment flagTable (String.mk (['h', 'e', 'l', 'l', 'o'] ++ [regionalU, regionalS] ++
            ['w', 'o', 'r', 'l', 'd']))).1.data.count replacementChar = 1) :=
  ⟨by decide,
    segment_pair flagTable ['h', 'e', 'l', 'l', 'o'] ['w', 'o', 'r', 'l', 'd'] regionalU
      regionalS (by decide) (by decide) (by decide) (by decide) (by decide) (by decide)
      (by decide) (by decide) (by decide)⟩

/-- C10 as stated fails: the prefix U+FFF5 holds no emoji candidate, yet with
it before the flag pair the normalized string holds two placeholders, not
exactly one. -/
theorem segment_pair_fails :
    (∀ c ∈ [replacementChar], isEmoji c = false) ∧
      isModifierPair flagTable regionalU regionalS = true ∧
      segment flagTable (String.mk ([replacementChar] ++ [regionalU, regionalS] ++ [])) =
        (String.mk ([replacementChar] ++ [replacementChar] ++ []),
          [buildEmojiFilename [regionalU, regionalS]]) ∧
      (segment flagTable (String.mk ([replacementChar] ++ [regionalU, regionalS] ++
        []))).1.data.count replacementChar ≠ 1 := by
  decide

/-! ## Further iterations of the tokenizer loop -/

/-- Iterations to spare can be added to the bound of the tokenizer loop. -/
theorem parseLoop_more (vm : ModifierTable) (runes : List Char) (k i : Nat) (acc : List Char)
    (joined : Bool) :
    parseLoop vm runes (runes.length - i) i acc joined =
      parseLoop vm runes (runes.length - i + k) i acc joined :=
  (parseLoop_fuel vm runes (runes.length - i + k) i acc joined (Nat.le_add_right _ _)).symm

/-- The loop stops at the end of the text and at a rune that is no emoji
candidate. -/
theorem parseLoop_plain_stop (vm : ModifierTable) (runes : List Char) (fuel i : Nat)
    (acc : List Char) (joined : Bool)
    (hnext : ∀ c, runes[i]? = some c → isEmoji c = false) :
    parseLoop vm runes fuel i acc joined = acc := by
  cases fuel with
  | zero => rfl
  | succ fuel =>
    rw [parseLoop]
    by_cases hi : i < runes.length
    · have he := hnext runes[i] (List.getElem?_eq_getElem hi)
      have hj : runes[i] ≠ joinChar := by
        intro hj
        rw [hj] at he
        exact absurd he (by decide)
      simp only [hi, dite_true, hj, if_false, he, Bool.false_eq_true]
    · simp only [hi, dite_false]

/-- A join character after a non-empty sequence is appended. -/
theorem parseLoop_join (vm : ModifierTable) (runes : List Char) (fuel i : Nat)
    (acc : List Char) (joined : Bool) (hc : runes[i]? = some joinChar) (hacc : acc ≠ []) :
    parseLoop vm runes (fuel + 1) i acc joined =
      parseLoop vm runes fuel (i + 1) (acc ++ [joinChar]) joined := by
  obtain ⟨hi, hci⟩ := List.getElem?_eq_some.mp hc
  have hlen : ¬ acc.length = 0 := by
    intro h0
    exact hacc (List.length_eq_zero.mp h0)
  rw [parseLoop]
  simp only [hi, dite_true, hci, if_true, hlen, if_false]

/-- An emoji candidate right after a join character is appended. -/
theorem parseLoop_after_join (vm : ModifierTable) (runes : List Char) (fuel i : Nat)
    (b : Char) (acc : List Char) (hz : runes[i]? = some joinChar)
    (hb : runes[i + 1]? = some b) (hacc : acc ≠ []) (hbj : b ≠ joinChar)
    (hbe : isEmoji b = true) :
    parseLoop vm runes (fuel + 1) (i + 1) acc false =
      parseLoop vm runes fuel (i + 2) (acc ++ [b]) false := by
  obtain ⟨hi, hzi⟩ := List.getElem?_eq_some.mp hz
  obtain ⟨hi1, hbi⟩ := List.getElem?_eq_some.mp hb
  have hlen : ¬ acc.length = 0 := by
    intro h0
    exact hacc (List.length_eq_zero.mp h0)
  have hzs : isSkinToneModifier joinChar = false := by decide
  rw [parseLoop]
  simp only [hi1, dite_true, hbi, hbj, hbe, if_true, if_false, hlen, Nat.add_sub_cancel, hzi,
    hzs, ne_eq, Nat.add_one_ne_zero, not_false_eq_true, true_and, and_false, and_true,
    Bool.false_eq_true]

/-- A skin-tone modifier right after a base that is neither the join
character nor a skin-tone modifier is appended. -/
theorem parseLoop_tone (vm : ModifierTable) (runes : List Char) (fuel i : Nat) (a t : Char)
    (acc : List Char) (ha : runes[i]? = some a) (ht : runes[i + 1]? = some t)
    (hacc : acc ≠ []) (haj : a ≠ joinChar) (has : isSkinToneModifier a = false)
    (hts : isSkinToneModifier t = true) :
    parseLoop vm runes (fuel + 1) (i + 1) acc false =
      parseLoop vm runes fuel (i + 2) (acc ++ [t]) false := by
  obtain ⟨hi, hai⟩ := List.getElem?_eq_some.mp ha
  obtain ⟨hi1, hti⟩ := List.getElem?_eq_some.mp ht
  have hlen : ¬ acc.length = 0 := by
    intro h0
    exact hacc (List.length_eq_zero.mp h0)
  have htj : t ≠ joinChar := by
    intro h
    rw [h] at hts
    exact absurd hts (by decide)
  have hte : isEmoji t = true := by
    unfold isSkinToneModifier at hts
    unfold isEmoji
    simp only [Bool.or_eq_true, beq_iff_eq] at hts
    have h1 : 127744 ≤ t.toNat ∧ t.toNat ≤ 129782 := by omega
    simp only [h1, and_self, if_true]
  rw [parseLoop]
  simp only [hi1, dite_true, hti, htj, hte, if_true, if_false, hlen, Nat.add_sub_cancel, hai,
    has, haj, hts, ne_eq, Nat.add_one_ne_zero, not_false_eq_true, true_and, and_false,
    and_true, Bool.false_eq_true]

/-- After a skin-tone modifier the loop stops at anything but a join
character. -/
theorem parseLoop_after_tone_stop (vm : ModifierTable) (runes : List Char) (fuel i : Nat)
    (t : Char) (acc : List Char) (joined : Bool) (ht : runes[i]? = some t)
    (hts : isSkinToneModifier t = true) (hacc : acc ≠ [])
    (hnext : ∀ c, runes[i + 1]? = some c → c ≠ joinChar) :
    parseLoop vm runes fuel (i + 1) acc joined = acc := by
  obtain ⟨hi, hti⟩ := List.getElem?_eq_some.mp ht
  have hlen : ¬ acc.length = 0 := by
    intro h0
    exact hacc (List.length_eq_zero.mp h0)
  cases fuel with
  | zero => rfl
  | succ fuel =>
    rw [parseLoop]
    by_cases hi1 : i + 1 < runes.length
    · have hj := hnext runes[i + 1] (List.getElem?_eq_getElem hi1)
      simp only [hi1, dite_true, hj, if_false, hlen, Nat.add_sub_cancel, hti, hts, ne_eq,
        Nat.add_one_ne_zero, not_false_eq_true, true_and, and_self, if_true]
      split_ifs <;> rfl
    · simp only [hi1, dite_false]

/-- What `parseEmoji` returns for a non-empty result of its loop. -/
theorem parseEmoji_of_loop (vm : ModifierTable) (text : String) (i : Nat) (seq : List Char)
    (hloop : parseLoop vm text.data (text.data.length - i) i [] false = seq)
    (hseq : seq ≠ []) : parseEmoji vm text i = (seq, i + seq.length - 1) := by
  have hlen : ¬ seq.length = 0 := by
    intro h0
    exact hseq (List.length_eq_zero.mp h0)
  unfold parseEmoji
  simp only [hloop, hlen, if_false]

/-- With `joinedLastChar` set and a non-empty sequence, the loop only ever
appends join characters. -/
theorem parseLoop_joined_joins (vm : ModifierTable) (runes : List Char) :
    ∀ (fuel i : Nat) (acc : List Char), acc ≠ [] →
      ∃ k, parseLoop vm runes fuel i acc true = acc ++ List.replicate k joinChar := by
  intro fuel
  induction fuel with
  | zero => intro i acc _; exact ⟨0, by simp [parseLoop]⟩
  | succ fuel ih =>
    intro i acc hacc
    have hlen : ¬ acc.length = 0 := by
      intro h0
      exact hacc (List.length_eq_zero.mp h0)
    by_cases hi : i < runes.length
    · by_cases hj : runes[i] = joinChar
      · obtain ⟨k, hk⟩ := ih (i + 1) (acc ++ [joinChar]) (by simp)
        refine ⟨k + 1, ?_⟩
        rw [parseLoop_join vm runes fuel i acc true
          (by rw [List.getElem?_eq_getElem hi, hj]) hacc, hk, List.replicate_succ]
        simp
      · refine ⟨0, ?_⟩
        rw [parseLoop_joined_stop vm runes (fuel + 1) i acc hacc (by
          intro c hc
          rw [List.getElem?_eq_getElem hi] at hc
          cases hc
          exact hj)]
        simp
    · refine ⟨0, ?_⟩
      rw [parseLoop]
      simp [hi]

/-! ## The shapes of sequence the tokenizer recognises -/

/-- C11: at an index `i` whose rune `c` is an emoji candidate other than the
join character, and whose next rune is absent or no emoji candidate,
`parseEmoji(text, i)` returns the one-rune sequence `[c]` and `endIndex = i`. -/
theorem parseEmoji_isolated (vm : ModifierTable) (text : String) (i : Nat) (c : Char)
    (hc : text.data[i]? = some c) (hj : c ≠ joinChar) (he : isEmoji c = true)
    (hnext : ∀ d, text.data[i + 1]? = some d → isEmoji d = false) :
    parseEmoji vm text i = ([c], i) := by
  have hloop : parseLoop vm text.data (text.data.length - i) i [] false = [c] := by
    rw [parseLoop_more vm text.data 1, parseLoop_first vm text.data _ i c false hc hj he,
      parseLoop_plain_stop vm text.data _ (i + 1) [c] false hnext]
  rw [parseEmoji_of_loop vm text i [c] hloop (by simp)]
  rfl

/-- Witness for C11: U+1F600 followed by the letter `a`. -/
theorem parseEmoji_isolated_witness :
    (String.mk [Char.ofNat 128512, 'a']).data[0]? = some (Char.ofNat 128512) ∧
      Char.ofNat 128512 ≠ joinChar ∧ isEmoji (Char.ofNat 128512) = true ∧
      (∀ d, (String.mk [Char.ofNat 128512, 'a']).data[0 + 1]? = some d → isEmoji d = false) ∧
      parseEmoji (fun _ => []) (String.mk [Char.ofNat 128512, 'a']) 0 =
        ([Char.ofNat 128512], 0) :=
  have hnext : ∀ d, (String.mk [Char.ofNat 128512, 'a']).data[0 + 1]? = some d →
      isEmoji d = false := fun d hd => by
    have hb : d = 'a' := by simpa using hd.symm
    rw [hb]
    decide
  ⟨by decide, by decide, by decide, hnext,
    parseEmoji_isolated (fun _ => []) (String.mk [Char.ofNat 128512, 'a']) 0
      (Char.ofNat 128512) (by decide) (by decide) (by decide) hnext⟩

/-- C12: a base emoji candidate `a` other than the join character at `i`, the
join character at `i + 1`, an emoji candidate `b` at `i + 2`, and nothing or
no emoji candidate at `i + 3`: `parseEmoji(text, i)` returns
`[a, U+200D, b]` and `endIndex = i + 2`, whatever the modifier table. -/
theorem parseEmoji_joined_three (vm : ModifierTable) (text : String) (i : Nat) (a b : Char)
    (ha : text.data[i]? = some a) (hz : text.data[i + 1]? = some joinChar)
    (hb : text.data[i + 2]? = some b) (haj : a ≠ joinChar) (hae : isEmoji a = true)
    (hbe : isEmoji b = true)
    (hnext : ∀ d, text.data[i + 3]? = some d → isEmoji d = false) :
    parseEmoji vm text i = ([a, joinChar, b], i + 2) := by
  have hloop : parseLoop vm text.data (text.data.length - i) i [] false = [a, joinChar, b] := by
    rw [parseLoop_more vm text.data 3, parseLoop_first vm text.data _ i a false ha haj hae,
      parseLoop_join vm text.data _ (i + 1) [a] false hz (by simp)]
    by_cases hbj : b = joinChar
    · rw [hbj] at hb ⊢
      rw [parseLoop_join vm text.data _ (i + 1 + 1) _ false hb (by simp),
        parseLoop_plain_stop vm text.data _ (i + 1 + 1 + 1) _ false hnext]
      rfl
    · rw [parseLoop_after_join vm text.data _ (i + 1) b _ hz hb (by simp) hbj hbe,
        parseLoop_plain_stop vm text.data _ (i + 1 + 2) _ false hnext]
      rfl
  rw [parseEmoji_of_loop vm text i _ hloop (by simp)]
  rfl

/-- Witness for C12: man, join character, woman (U+1F468 U+200D U+1F469). -/
theorem parseEmoji_joined_three_witness :
    (String.mk [Char.ofNat 128104, joinChar, Char.ofNat 128105]).data[0]? =
        some (Char.ofNat 128104) ∧
      (String.mk [Char.ofNat 128104, joinChar, Char.ofNat 128105]).data[0 + 1]? =
        some joinChar ∧
      (String.mk [Char.ofNat 128104, joinChar, Char.ofNat 128105]).data[0 + 2]? =
        some (Char.ofNat 128105) ∧
      Char.ofNat 128104 ≠ joinChar ∧ isEmoji (Char.ofNat 128104) = true ∧
      isEmoji (Char.ofNat 128105) = true ∧
      parseEmoji flagTable (String.mk [Char.ofNat 128104, joinChar, Char.ofNat 128105]) 0 =
        ([Char.ofNat 128104, joinChar, Char.ofNat 128105], 0 + 2) :=
  ⟨by decide, by decide, by decide, by decide, by decide, by decide,
    parseEmoji_joined_three flagTable
      (String.mk [Char.ofNat 128104, joinChar, Char.ofNat 128105]) 0 (Char.ofNat 128104)
      (Char.ofNat 128105) (by decide) (by decide) (by decide) (by decide) (by decide)
      (by decide) (fun d hd => by simp at hd)⟩

/-- C13: for emoji candidates `a`, `b`, neither the join character nor a
skin-tone modifier, with `isModifierPair(a, b)`, at indices `i`, `i + 1`, and
an index `i + 2` that is absent, holds no emoji candidate, or holds any
emoji candidate other than the join character, `parseEmoji(text, i)` returns
`[a, b]` and `endIndex = i + 1`: the third rune never extends the pair. -/
theorem parseEmoji_modifier_pair (vm : ModifierTable) (text : String) (i : Nat) (a b : Char)
    (ha : text.data[i]? = some a) (hb : text.data[i + 1]? = some b)
    (haj : a ≠ joinChar) (hae : isEmoji a = true) (has : isSkinToneModifier a = false)
    (hbj : b ≠ joinChar) (hbe : isEmoji b = true) (hbs : isSkinToneModifier b = false)
    (hp : isModifierPair vm a b = true)
    (hnext : ∀ d, text.data[i + 2]? = some d → isEmoji d = false ∨ d ≠ joinChar) :
    parseEmoji vm text i = ([a, b], i + 1) := by
  have hnj : ∀ d, text.data[i + 2]? = some d → d ≠ joinChar := by
    intro d hd hj
    rcases hnext d hd with he | hne
    · rw [hj] at he
      exact absurd he (by decide)
    · exact hne hj
  have hloop : parseLoop vm text.data (text.data.length - i) i [] false = [a, b] := by
    rw [parseLoop_more vm text.data 2, parseLoop_first vm text.data _ i a false ha haj hae,
      parseLoop_pair vm text.data _ i a b [a] ha hb (by simp) haj has hbj hbe hbs hp,
      parseLoop_joined_stop vm text.data _ (i + 2) _ (by simp) hnj]
    rfl
  rw [parseEmoji_of_loop vm text i _ hloop (by simp)]
  rfl

/-- Witness for C13: the flag pair U+1F1FA U+1F1F8 followed by U+1F600, an
emoji candidate that is not joined. -/
theorem parseEmoji_modifier_pair_witness :
    (String.mk [regionalU, regionalS, Char.ofNat 128512]).data[0]? = some regionalU ∧
      (String.mk [regionalU, regionalS, Char.ofNat 128512]).data[0 + 1]? = some regionalS ∧
      regionalU ≠ joinChar ∧ isEmoji regionalU = true ∧
      isSkinToneModifier regionalU = false ∧ regionalS ≠ joinChar ∧
      isEmoji regionalS = true ∧ isSkinToneModifier regionalS = false ∧
      isModifierPair flagTable regionalU regionalS = true ∧
      (∀ d, (String.mk [regionalU, regionalS, Char.ofNat 128512]).data[0 + 2]? = some d →
        isEmoji d = false ∨ d ≠ joinChar) ∧
      parseEmoji flagTable (String.mk [regionalU, regionalS, Char.ofNat 128512]) 0 =
        ([regionalU, regionalS], 0 + 1) :=
  have hnext : ∀ d, (String.mk [regionalU, regionalS, Char.ofNat 128512]).data[0 + 2]? =
      some d → isEmoji d = false ∨ d ≠ joinChar := fun d hd => by
    have hb : d = Char.ofNat 128512 := by simpa using hd.symm
    rw [hb]
    exact Or.inr (by decide)
  ⟨by decide, by decide, by decide, by decide, by decide, by decide, by decide, by decide,
    by decide, hnext,
    parseEmoji_modifier_pair flagTable (String.mk [regionalU, regionalS, Char.ofNat 128512]) 0
      regionalU regionalS (by decide) (by decide) (by decide) (by decide) (by decide)
      (by decide) (by decide) (by decide) (by decide) hnext⟩

/-- C14: a base emoji candidate `b`, neither the join character nor a
skin-tone modifier, at `i`, a skin-tone modifier `t` at `i + 1`, and an index
`i + 2` that is absent, holds no emoji candidate, or holds any emoji
candidate other than the join character: `parseEmoji(text, i)` returns
`[b, t]` and `endIndex = i + 1`. -/
theorem parseEmoji_skin_tone (vm : ModifierTable) (text : String) (i : Nat) (b t : Char)
    (hb : text.data[i]? = some b) (ht : text.data[i + 1]? = some t)
    (hbj : b ≠ joinChar) (hbe : isEmoji b = true) (hbs : isSkinToneModifier b = false)
    (hts : isSkinToneModifier t = true)
    (hnext : ∀ d, text.data[i + 2]? = some d → isEmoji d = false ∨ d ≠ joinChar) :
    parseEmoji vm text i = ([b, t], i + 1) := by
  have hnj : ∀ d, text.data[i + 1 + 1]? = some d → d ≠ joinChar := by
    intro d hd hj
    rcases hnext d hd with he | hne
    · rw [hj] at he
      exact absurd he (by decide)
    · exact hne hj
  have hloop : parseLoop vm text.data (text.data.length - i) i [] false = [b, t] := by
    rw [parseLoop_more vm text.data 2, parseLoop_first vm text.data _ i b false hb hbj hbe,
      parseLoop_tone vm text.data _ i b t [b] hb ht (by simp) hbj hbs hts,
      parseLoop_after_tone_stop vm text.data _ (i + 1) t _ false ht hts (by simp) hnj]
    rfl
  rw [parseEmoji_of_loop vm text i _ hloop (by simp)]
  rfl

/-- Witness for C14: thumbs up U+1F44D, the skin tone U+1F3FD, then U+1F600. -/
theorem parseEmoji_skin_tone_witness :
    (String.mk [Char.ofNat 128077, Char.ofNat 127997, Char.ofNat 128512]).data[0]? =
        some (Char.ofNat 128077) ∧
      (String.mk [Char.ofNat 128077, Char.ofNat 127997, Char.ofNat 128512]).data[0 + 1]? =
        some (Char.ofNat 127997) ∧
      Char.ofNat 128077 ≠ joinChar ∧ isEmoji (Char.ofNat 128077) = true ∧
      isSkinToneModifier (Char.ofNat 128077) = false ∧
      isSkinToneModifier (Char.ofNat 127997) = true ∧
      (∀ d, (String.mk [Char.ofNat 128077, Char.ofNat 127997,
          Char.ofNat 128512]).data[0 + 2]? = some d → isEmoji d = false ∨ d ≠ joinChar) ∧
      parseEmoji (fun _ => [])
          (String.mk [Char.ofNat 128077, Char.ofNat 127997, Char.ofNat 128512]) 0 =
        ([Char.ofNat 128077, Char.ofNat 127997], 0 + 1) :=
  have hnext : ∀ d, (String.mk [Char.ofNat 128077, Char.ofNat 127997,
      Char.ofNat 128512]).data[0 + 2]? = some d → isEmoji d = false ∨ d ≠ joinChar :=
    fun d hd => by
      have hb : d = Char.ofNat 128512 := by simpa using hd.symm
      rw [hb]
      exact Or.inr (by decide)
  ⟨by decide, by decide, by decide, by decide, by decide, by decide, hnext,
    parseEmoji_skin_tone (fun _ => [])
      (String.mk [Char.ofNat 128077, Char.ofNat 127997, Char.ofNat 128512]) 0
      (Char.ofNat 128077) (Char.ofNat 127997) (by decide) (by decide) (by decide) (by decide)
      (by decide) (by decide) hnext⟩

/-- A modifier pair at `i`, `i + 1` followed by a join character and then by
anything but a join character is returned with the join character and
nothing more. -/
theorem parseEmoji_pair_join (vm : ModifierTable) (text : String) (i : Nat) (a b : Char)
    (ha : text.data[i]? = some a) (hb : text.data[i + 1]? = some b)
    (hz : text.data[i + 2]? = some joinChar)
    (haj : a ≠ joinChar) (hae : isEmoji a = true) (has : isSkinToneModifier a = false)
    (hbj : b ≠ joinChar) (hbe : isEmoji b = true) (hbs : isSkinToneModifier b = false)
    (hp : isModifierPair vm a b = true)
    (hnext : ∀ d, text.data[i + 2 + 1]? = some d → d ≠ joinChar) :
    parseEmoji vm text i = ([a, b, joinChar], i + 2) := by
  have hloop : parseLoop vm text.data (text.data.length - i) i [] false =
      [a, b, joinChar] := by
    rw [parseLoop_more vm text.data 3, parseLoop_first vm text.data _ i a false ha haj hae,
      parseLoop_pair vm text.data _ i a b [a] ha hb (by simp) haj has hbj hbe hbs hp,
      parseLoop_join vm text.data _ (i + 2) _ true hz (by simp),
      parseLoop_joined_stop vm text.data _ (i + 2 + 1) _ (by simp) hnext]
    rfl
  rw [parseEmoji_of_loop vm text i _ hloop (by simp)]
  rfl

/-- C19: once the loop has set `joinedLastChar` it only ever appends join
characters; so for a modifier pair `(a, b)`, neither rune the join character
or a skin-tone modifier, and an emoji candidate `c` other than the join
character, `parseEmoji` on the text `a, b, U+200D, c` from index 0 returns
`[a, b, U+200D]` with `endIndex = 2`, and `c` starts the next sequence. -/
theorem parseEmoji_pair_then_join (vm : ModifierTable) (a b c : Char)
    (haj : a ≠ joinChar) (hae : isEmoji a = true) (has : isSkinToneModifier a = false)
    (hbj : b ≠ joinChar) (hbe : isEmoji b = true) (hbs : isSkinToneModifier b = false)
    (hp : isModifierPair vm a b = true) (hcj : c ≠ joinChar) (hce : isEmoji c = true) :
    (∀ (runes : List Char) (fuel i : Nat) (acc : List Char), acc ≠ [] →
        ∃ k, parseLoop vm runes fuel i acc true = acc ++ List.replicate k joinChar) ∧
      parseEmoji vm (String.mk [a, b, joinChar, c]) 0 = ([a, b, joinChar], 2) ∧
      parseEmoji vm (String.mk [a, b, joinChar, c]) 3 = ([c], 3) := by
  refine ⟨fun runes => parseLoop_joined_joins vm runes, ?_, ?_⟩
  · exact parseEmoji_pair_join vm (String.mk [a, b, joinChar, c]) 0 a b rfl rfl rfl haj hae has
      hbj hbe hbs hp (by
        intro d hd
        have hdc : d = c := by simpa using hd.symm
        rw [hdc]
        exact hcj)
  · have hloop : parseLoop vm (String.mk [a, b, joinChar, c]).data
        ((String.mk [a, b, joinChar, c]).data.length - 3) 3 [] false = [c] := by
      rw [parseLoop_more vm _ 1, parseLoop_first vm _ _ 3 c false rfl hcj hce,
        parseLoop_plain_stop vm _ _ (3 + 1) [c] false (by
          intro d hd
          simp at hd)]
    rw [parseEmoji_of_loop vm _ 3 _ hloop (by simp)]
    rfl

/-- Witness for C19: the flag pair U+1F1FA U+1F1F8, a join character and
U+1F600. -/
theorem parseEmoji_pair_then_join_witness :
    (regionalU ≠ joinChar ∧ isEmoji regionalU = true ∧
        isSkinToneModifier regionalU = false ∧ regionalS ≠ joinChar ∧
        isEmoji regionalS = true ∧ isSkinToneModifier regionalS = false ∧
        isModifierPair flagTable regionalU regionalS = true ∧
        Char.ofNat 128512 ≠ joinChar ∧ isEmoji (Char.ofNat 128512) = true) ∧
      parseEmoji flagTable (String.mk [regionalU, regionalS, joinChar, Char.ofNat 128512]) 0 =
        ([regionalU, regionalS, joinChar], 2) :=
  ⟨by decide,
    (parseEmoji_pair_then_join flagTable regionalU regionalS (Char.ofNat 128512) (by decide)
      (by decide) (by decide) (by decide) (by decide) (by decide) (by decide) (by decide)
      (by decide)).2.1⟩

/-! ## Only emoji candidates are consumed -/

/-- The loop of `parseEmoji` only ever appends emoji candidates. -/
theorem parseLoop_all_emoji (vm : ModifierTable) (runes : List Char) :
    ∀ (fuel i : Nat) (acc : List Char) (joined : Bool),
      (∀ c ∈ acc, isEmoji c = true) →
      ∀ c ∈ parseLoop vm runes fuel i acc joined, isEmoji c = true := by
  intro fuel
  induction fuel with
  | zero => intro i acc joined hacc; simpa [parseLoop] using hacc
  | succ fuel ih =>
    intro i acc joined hacc
    by_cases h : i < runes.length
    · by_cases he : isEmoji runes[i] = true
      · have go : ∀ j : Bool,
            ∀ c ∈ parseLoop vm runes fuel (i + 1) (acc ++ [runes[i]]) j, isEmoji c = true := by
          intro j
          apply ih
          intro c hc
          rcases List.mem_append.mp hc with hc | hc
          · exact hacc c hc
          · rw [List.mem_singleton.mp hc]
            exact he
        unfold parseLoop
        simp only [h, dite_true]
        split_ifs <;> first | exact hacc | exact go _
      · have hj : runes[i] ≠ joinChar := by
          intro hj
          rw [hj] at he
          exact he (by decide)
        unfold parseLoop
        simp only [h, dite_true, hj, if_false, he]
        exact hacc
    · unfold parseLoop
      simp only [h, dite_false]
      exact hacc

/-- The sequence `parseEmoji` returns is the result of its loop. -/
theorem parseEmoji_fst (vm : ModifierTable) (text : String) (startI : Nat) :
    (parseEmoji vm text startI).1 =
      parseLoop vm text.data (text.data.length - startI) startI [] false := by
  unfold parseEmoji
  by_cases h0 : (parseLoop vm text.data (text.data.length - startI) startI [] false).length = 0
  · simp only [h0, if_true]
    exact (List.length_eq_zero.mp h0).symm
  · simp only [h0, if_false]

/-- A variation selector is no emoji candidate. -/
theorem isEmoji_selector (c : Char) (h : c.toNat = 65039 ∨ c.toNat = 65038) :
    isEmoji c = false := by
  unfold isEmoji
  simp only
  split_ifs <;> first | rfl | omega

/-- C15: every rune of the sequence `parseEmoji` returns passes `isEmoji`, so
the sequence never holds a variation selector (U+FE0E, U+FE0F), and the scan
stops at the first variation selector it meets: the sequence ends before
it. -/
theorem parseEmoji_no_selector (vm : ModifierTable) (text : String) (startI : Nat) :
    (∀ c ∈ (parseEmoji vm text startI).1, isEmoji c = true) ∧
      (∀ c ∈ (parseEmoji vm text startI).1, ¬ (c.toNat = 65039 ∨ c.toNat = 65038)) ∧
      (∀ (j : Nat) (c : Char), startI ≤ j → text.data[j]? = some c →
        (c.toNat = 65039 ∨ c.toNat = 65038) →
        (parseEmoji vm text startI).1.length ≤ j - startI) := by
  have hall : ∀ c ∈ (parseEmoji vm text startI).1, isEmoji c = true := by
    rw [parseEmoji_fst]
    exact parseLoop_all_emoji vm text.data _ startI [] false (by simp)
  refine ⟨hall, ?_, ?_⟩
  · intro c hc hsel
    have h1 := hall c hc
    rw [isEmoji_selector c hsel] at h1
    exact absurd h1 (by decide)
  · intro j c hj hc hsel
    obtain ⟨n, _, hn, hlen⟩ := parseEmoji_run vm text startI
    by_contra hgt
    have hfst : (parseEmoji vm text startI).1 = (text.data.drop startI).take n := by
      rw [parseEmoji_fst, hn]
    rw [hfst, hlen] at hgt
    have hmem : c ∈ (parseEmoji vm text startI).1 := by
      rw [hfst]
      apply @List.getElem?_mem _ _ (j - startI) c
      rw [List.getElem?_take, if_pos (by omega), List.getElem?_drop]
      have e : startI + (j - startI) = j := by omega
      rw [e]
      exact hc
    have h1 := hall c hmem
    rw [isEmoji_selector c hsel] at h1
    exact absurd h1 (by decide)

/-! ## The emoji ranges -/

/-- C16: `isEmoji(c)` holds exactly when `c` lies in one of the four closed
ranges [127744,129782], [126980,127569], [169,174], [8205,12953]; the values
just outside each range are no emoji candidates. -/
theorem isEmoji_ranges :
    (∀ c : Char, isEmoji c = true ↔
        (127744 ≤ c.toNat ∧ c.toNat ≤ 129782) ∨ (126980 ≤ c.toNat ∧ c.toNat ≤ 127569) ∨
          (169 ≤ c.toNat ∧ c.toNat ≤ 174) ∨ (8205 ≤ c.toNat ∧ c.toNat ≤ 12953)) ∧
      isEmoji (Char.ofNat 168) = false ∧ isEmoji (Char.ofNat 175) = false ∧
      isEmoji (Char.ofNat 8204) = false ∧ isEmoji (Char.ofNat 12954) = false ∧
      isEmoji (Char.ofNat 126979) = false ∧ isEmoji (Char.ofNat 127570) = false ∧
      isEmoji (Char.ofNat 127743) = false ∧ isEmoji (Char.ofNat 129783) = false := by
  refine ⟨?_, by decide, by decide, by decide, by decide, by decide, by decide, by decide,
    by decide⟩
  intro c
  unfold isEmoji
  simp only
  split_ifs with h1 h2 h3 h4
  · simp only [true_iff]
    exact Or.inl h1
  · simp only [true_iff]
    exact Or.inr (Or.inl h2)
  · simp only [true_iff]
    exact Or.inr (Or.inr (Or.inl h3))
  · simp only [true_iff]
    exact Or.inr (Or.inr (Or.inr h4))
  · simp only [Bool.false_eq_true, false_iff]
    rintro (h | h | h | h)
    · exact h1 h
    · exact h2 h
    · exact h3 h
    · exact h4 h

/-! ## The render loop under the segmenter invariant -/

/-- One iteration of the render loop raises `emojiIndex` by at most one, and
only at a placeholder. -/
theorem renderStep_emojiIndex_le {α : Type} [Add α] (keys : List String)
    (assets : String → Asset) (MWidth : α) (measure : Char → α) (toInt : α → Int) (y : α)
    (i : Nat)
    (char : Char) (st : RenderState α) :
    (renderStep keys assets MWidth measure toInt y i char st).emojiIndex ≤
      st.emojiIndex + [char].count replacementChar := by
  unfold renderStep
  by_cases hc : char = replacementChar
  · simp only [hc, if_true, List.count_singleton, beq_self_eq_true]
    by_cases h : st.emojiIndex ≥ keys.length
    · simp only [h, dite_true]
      omega
    · simp only [h, dite_false]
      split <;> simp
  · simp only [hc, if_false]
    split_ifs <;> simp

/-- One iteration of the render loop at a placeholder with `emojiIndex` in
range, or at any other rune, logs no `Emoji index out of range`. -/
theorem renderStep_in_range {α : Type} [Add α] (keys : List String)
    (assets : String → Asset) (MWidth : α) (measure : Char → α) (toInt : α → Int) (y : α)
    (i : Nat)
    (char : Char) (st : RenderState α)
    (hok : char = replacementChar → st.emojiIndex < keys.length) (j : Nat)
    (hj : RenderEvent.indexOutOfRange j ∈
      (renderStep keys assets MWidth measure toInt y i char st).trace) :
    RenderEvent.indexOutOfRange j ∈ st.trace := by
  unfold renderStep at hj
  by_cases hc : char = replacementChar
  · have h : ¬ st.emojiIndex ≥ keys.length := Nat.not_le.mpr (hok hc)
    simp only [hc, if_true, h, dite_false] at hj
    split at hj <;> simpa using hj
  · simp only [hc, if_false] at hj
    split_ifs at hj <;> simpa using hj

/-- The render loop raises `emojiIndex` by at most the number of
placeholders it walks over. -/
theorem renderLoop_emojiIndex_le {α : Type} [Add α] (keys : List String)
    (assets : String → Asset) (MWidth : α) (measure : Char → α) (toInt : α → Int) (y : α) :
    ∀ (runes : List Char) (i : Nat) (st : RenderState α),
      (renderLoop keys assets MWidth measure toInt y i runes st).emojiIndex ≤
        st.emojiIndex + runes.count replacementChar := by
  intro runes
  induction runes with
  | nil => intro i st; simp [renderLoop]
  | cons char rest ih =>
    intro i st
    rw [renderLoop]
    have h1 := ih (i + 1) (renderStep keys assets MWidth measure toInt y i char st)
    have h2 := renderStep_emojiIndex_le keys assets MWidth measure toInt y i char st
    have h3 : (char :: rest).count replacementChar =
        [char].count replacementChar + rest.count replacementChar := by
      rw [← List.count_append]
      rfl
    omega

/-- While there are keys left for all the placeholders still to come, the
render loop logs no `Emoji index out of range`. -/
theorem renderLoop_in_range {α : Type} [Add α] (keys : List String)
    (assets : String → Asset) (MWidth : α) (measure : Char → α) (toInt : α → Int) (y : α) :
    ∀ (runes : List Char) (i : Nat) (st : RenderState α),
      st.emojiIndex + runes.count replacementChar ≤ keys.length →
      ∀ j, RenderEvent.indexOutOfRange j ∈
          (renderLoop keys assets MWidth measure toInt y i runes st).trace →
        RenderEvent.indexOutOfRange j ∈ st.trace := by
  intro runes
  induction runes with
  | nil => intro i st _ j hj; simpa [renderLoop] using hj
  | cons char rest ih =>
    intro i st hle j hj
    rw [renderLoop] at hj
    have h3 : (char :: rest).count replacementChar =
        [char].count replacementChar + rest.count replacementChar := by
      rw [← List.count_append]
      rfl
    have h2 := renderStep_emojiIndex_le keys assets MWidth measure toInt y i char st
    have hok : char = replacementChar → st.emojiIndex < keys.length := by
      intro hc
      have h1 : [char].count replacementChar = 1 := by
        rw [hc]
        simp
      omega
    exact renderStep_in_range keys assets MWidth measure toInt y i char st hok j
      (ih (i + 1) _ (by omega) j hj)

/-- C17: when the number of placeholders U+FFF5 in the normalized string
equals the length of the key list, the render loop never takes the
`Emoji index out of range` branch, whatever the asset store: no such event is
in its trace, and at every placeholder the current `emojiIndex` is strictly
less than the length of the key list. -/
theorem render_index_in_range {α : Type} [Add α] (withoutEmojis : String)
    (emojisUsed : List String) (assets : String → Asset) (MWidth : α) (measure : Char → α)
    (toInt : α → Int) (startX y : α)
    (hinv : withoutEmojis.data.count replacementChar = emojisUsed.length) :
    (∀ j, RenderEvent.indexOutOfRange j ∉
        (render withoutEmojis emojisUsed assets MWidth measure toInt startX y).trace) ∧
      (∀ pre post : List Char, withoutEmojis.data = pre ++ replacementChar :: post →
        (renderLoop emojisUsed assets MWidth measure toInt y 0 pre
          { x := startX, emojiIndex := 0, trace := [] }).emojiIndex <
            emojisUsed.length) := by
  constructor
  · intro j hj
    have := renderLoop_in_range emojisUsed assets MWidth measure toInt y withoutEmojis.data 0
      { x := startX, emojiIndex := 0, trace := [] } (by simp [hinv]) j hj
    simp at this
  · intro pre post hsplit
    have h1 := renderLoop_emojiIndex_le emojisUsed assets MWidth measure toInt y pre 0
      { x := startX, emojiIndex := 0, trace := [] }
    rw [hsplit, List.count_append, List.count_cons_self] at hinv
    simp only at h1
    omega

/-- Witness for C17: two placeholders, two keys, a store that has neither
file. -/
theorem render_index_in_range_witness :
    (String.mk [replacementChar, 'a', replacementChar]).data.count replacementChar =
        ["emoji_a.png", "emoji_b.png"].length ∧
      (∀ j, RenderEvent.indexOutOfRange j ∉
        (render (String.mk [replacementChar, 'a', replacementChar])
          ["emoji_a.png", "emoji_b.png"] (fun _ => Asset.missing) (10 : Nat) (fun _ => 3)
          (fun v => Int.ofNat v) 0 256).trace) :=
  ⟨by decide,
    (render_index_in_range (String.mk [replacementChar, 'a', replacementChar])
      ["emoji_a.png", "emoji_b.png"] (fun _ => Asset.missing) (10 : Nat) (fun _ => 3)
      (fun v => Int.ofNat v) 0 256 (by decide)).1⟩

/-! ## Where the render loop anchors an image -/

/-- The iteration of the render loop at a placeholder whose key is in range
and whose asset opens and decodes. -/
theorem renderStep_image {α : Type} [Add α] (keys : List String) (assets : String → Asset)
    (MWidth : α) (measure : Char → α) (toInt : α → Int) (y : α) (i : Nat)
    (st : RenderState α) (hlt : st.emojiIndex < keys.length)
    (himg : assets ("data/emojis/" ++ keys[st.emojiIndex]) = Asset.image) :
    renderStep keys assets MWidth measure toInt y i replacementChar st =
      { x := st.x + MWidth, emojiIndex := st.emojiIndex + 1,
        trace := st.trace ++
          [RenderEvent.drawImage i keys[st.emojiIndex] (toInt (st.x + MWidth)) (toInt y)
            Anchor.one Anchor.half] } := by
  have h : ¬ st.emojiIndex ≥ keys.length := Nat.not_le.mpr hlt
  unfold renderStep
  simp only [if_true, h, dite_false, himg]

/-- Every image the render loop draws has the anchors `(1, 0.5)` and the
ordinate `int(y)`. -/
theorem renderLoop_image_anchor {α : Type} [Add α] (keys : List String)
    (assets : String → Asset) (MWidth : α) (measure : Char → α) (toInt : α → Int) (y : α) :
    ∀ (runes : List Char) (i : Nat) (st : RenderState α),
      (∀ (j : Nat) (k : String) (x1 y1 : Int) (ax ay : Anchor),
        RenderEvent.drawImage j k x1 y1 ax ay ∈ st.trace →
          ax = Anchor.one ∧ ay = Anchor.half ∧ y1 = toInt y) →
      ∀ (j : Nat) (k : String) (x1 y1 : Int) (ax ay : Anchor),
        RenderEvent.drawImage j k x1 y1 ax ay ∈
            (renderLoop keys assets MWidth measure toInt y i runes st).trace →
          ax = Anchor.one ∧ ay = Anchor.half ∧ y1 = toInt y := by
  intro runes
  induction runes with
  | nil => intro i st hst; simpa [renderLoop] using hst
  | cons char rest ih =>
    intro i st hst
    rw [renderLoop]
    apply ih
    intro j k x1 y1 ax ay hmem
    unfold renderStep at hmem
    by_cases hc : char = replacementChar
    · simp only [hc, if_true] at hmem
      by_cases h : st.emojiIndex ≥ keys.length
      · simp only [h, dite_true, List.mem_append, List.mem_singleton] at hmem
        rcases hmem with hmem | hmem
        · exact hst j k x1 y1 ax ay hmem
        · cases hmem
      · simp only [h, dite_false] at hmem
        split at hmem
        · simp only [List.mem_append, List.mem_singleton] at hmem
          rcases hmem with hmem | hmem
          · exact hst j k x1 y1 ax ay hmem
          · cases hmem
        · simp only [List.mem_append, List.mem_singleton] at hmem
          rcases hmem with hmem | hmem
          · exact hst j k x1 y1 ax ay hmem
          · cases hmem
        · simp only [List.mem_append, List.mem_singleton] at hmem
          rcases hmem with hmem | hmem
          · exact hst j k x1 y1 ax ay hmem
          · cases hmem
            exact ⟨rfl, rfl, rfl⟩
    · simp only [hc, if_false] at hmem
      split_ifs at hmem
      · simp only [List.mem_append, List.mem_singleton] at hmem
        rcases hmem with hmem | hmem
        · exact hst j k x1 y1 ax ay hmem
        · cases hmem
      · simp only [List.mem_append, List.mem_singleton] at hmem
        rcases hmem with hmem | hmem
        · exact hst j k x1 y1 ax ay hmem
        · cases hmem

/-- C18, as the code has it: at a placeholder whose image is drawn the cursor
`x` is first advanced by `MWidth` and the image is then drawn at the point
`(int(x), int(y))` with the anchors `(1, 0.5)`: its right edge and its
vertical centre are at the advanced cursor truncated to integers; every
image in the trace of the render pass has these anchors and the ordinate
`int(y)`. -/
theorem renderStep_image_anchor {α : Type} [Add α] (keys : List String)
    (assets : String → Asset) (MWidth : α) (measure : Char → α) (toInt : α → Int) (y : α)
    (i : Nat) (st : RenderState α) (hlt : st.emojiIndex < keys.length)
    (himg : assets ("data/emojis/" ++ keys[st.emojiIndex]) = Asset.image) :
    renderStep keys assets MWidth measure toInt y i replacementChar st =
        { x := st.x + MWidth, emojiIndex := st.emojiIndex + 1,
          trace := st.trace ++
            [RenderEvent.drawImage i keys[st.emojiIndex] (toInt (st.x + MWidth)) (toInt y)
              Anchor.one Anchor.half] } ∧
      (∀ (withoutEmojis : String) (startX : α) (j : Nat) (k : String) (x1 y1 : Int)
          (ax ay : Anchor),
        RenderEvent.drawImage j k x1 y1 ax ay ∈
            (render withoutEmojis keys assets MWidth measure toInt startX y).trace →
          ax = Anchor.one ∧ ay = Anchor.half ∧ y1 = toInt y) ∧
      (∀ (x : Int) (w : Nat), imageLeft x Anchor.one w + w = x) ∧
      (∀ (y0 : Int) (h : Nat), imageTop y0 Anchor.half h + (h / 2 : Nat) = y0) := by
  refine ⟨renderStep_image keys assets MWidth measure toInt y i st hlt himg, ?_, ?_, ?_⟩
  · intro withoutEmojis startX
    exact renderLoop_image_anchor keys assets MWidth measure toInt y withoutEmojis.data 0
      { x := startX, emojiIndex := 0, trace := [] } (by
        intro j k x1 y1 ax ay hmem
        simp at hmem)
  · intro x w
    simp only [imageLeft, anchorOffset]
    omega
  · intro y0 h
    simp only [imageTop, anchorOffset]
    omega

/-- Witness for C18, with the cursor counted in half pixels: one placeholder
at cursor 0 with `MWidth` 10.5 pixels and `y` 256 pixels is drawn at
`(10, 256)`. -/
theorem renderStep_image_anchor_witness :
    (0 < ["emoji_a.png"].length ∧
        (fun _ : String => Asset.image) ("data/emojis/" ++ "emoji_a.png") = Asset.image) ∧
      renderStep ["emoji_a.png"] (fun _ => Asset.image) (21 : Nat) (fun _ => 6)
          (fun v => Int.ofNat (v / 2)) 512 0 replacementChar
          { x := 0, emojiIndex := 0, trace := [] } =
        { x := 21, emojiIndex := 1,
          trace := [RenderEvent.drawImage 0 "emoji_a.png" 10 256 Anchor.one Anchor.half] } :=
  ⟨⟨by decide, rfl⟩,
    (renderStep_image_anchor ["emoji_a.png"] (fun _ => Asset.image) (21 : Nat) (fun _ => 6)
      (fun v => Int.ofNat (v / 2)) 512 0 { x := 0, emojiIndex := 0, trace := [] }
      (by decide) rfl).1⟩

/-- C18 as stated fails.  With the cursor counted in half pixels, `MWidth`
10.5 pixels and `y` 256 pixels, the one placeholder advances the cursor to
10.5 and its image is drawn at `(10, 256)` with the horizontal anchor `1`:
the left edge of an image 10 pixels wide is at 0, which is neither the
cursor nor the cursor truncated. -/
theorem render_image_left_edge_fails :
    render (String.mk [replacementChar]) ["emoji_a.png"] (fun _ => Asset.image) (21 : Nat)
        (fun _ => 6) (fun v => Int.ofNat (v / 2)) 0 512 =
      { x := 21, emojiIndex := 1,
        trace := [RenderEvent.drawImage 0 "emoji_a.png" 10 256 Anchor.one Anchor.half] } ∧
      2 * imageLeft 10 Anchor.one 10 ≠ 21 ∧
      imageLeft 10 Anchor.one 10 ≠ 10 := by
  decide

/-! ## Ordinary text passes through the segmenter -/

/-- The segmenter loop leaves only at the end of the text. -/
theorem segStep_none_le (vm : ModifierTable) (text : String) (st : SegState)
    (h : segStep vm text st = none) : text.data.length ≤ st.i := by
  by_contra hlt
  have hi : st.i < text.data.length := by omega
  unfold segStep at h
  simp only [hi, dite_true] at h
  split_ifs at h

/-- One iteration of the segmenter keeps the ordinary runes: without its
placeholders, the normalized string is the scanned part of the text without
its emoji candidates and its U+FFF5. -/
theorem segStep_ordinary (vm : ModifierTable) (text : String) (st st' : SegState)
    (hstep : segStep vm text st = some st')
    (hinv : st.withoutEmojis.data.filter (fun c => c != replacementChar) =
      (text.data.take st.i).filter (fun c => !isEmoji c && c != replacementChar)) :
    st'.withoutEmojis.data.filter (fun c => c != replacementChar) =
      (text.data.take st'.i).filter (fun c => !isEmoji c && c != replacementChar) := by
  by_cases hi : st.i < text.data.length
  · have htake : text.data.take (st.i + 1) = text.data.take st.i ++ [text.data[st.i]] := by
      rw [List.take_succ, List.getElem?_eq_getElem hi]
      rfl
    by_cases he : isEmoji text.data[st.i] = true
    · by_cases hp : (parseEmoji vm text st.i).1 = []
      · have hlen : (parseEmoji vm text st.i).1.length = 0 := by rw [hp]; rfl
        unfold segStep at hstep
        simp only [hi, dite_true, he, if_true, hlen] at hstep
        cases hstep
        simp only [htake, List.filter_append, hinv]
        simp [he]
      · rw [segStep_emoji vm text st text.data[st.i] (List.getElem?_eq_getElem hi) he hp]
          at hstep
        cases hstep
        obtain ⟨n, _, _, hr⟩ := parseEmoji_span vm text st.i hp
        have hall : ∀ c ∈ (text.data.drop st.i).take n, isEmoji c = true := by
          have h1 : (parseEmoji vm text st.i).1 = (text.data.drop st.i).take n := by rw [hr]
          rw [← h1, parseEmoji_fst]
          exact parseLoop_all_emoji vm text.data _ st.i [] false (by simp)
        have hnone : ((text.data.drop st.i).take n).filter
            (fun c => !isEmoji c && c != replacementChar) = [] := by
          rw [List.filter_eq_nil_iff]
          intro c hc
          simp [hall c hc]
        have hidx : (parseEmoji vm text st.i).2 + 1 = st.i + n := by
          rw [hr]
          show st.i + n - 1 + 1 = st.i + n
          omega
        simp only [hidx, String.data_append, List.filter_append, List.take_add, hnone,
          List.append_nil, hinv]
        simp [String.singleton, replacementChar]
    · rw [segStep_copy vm text st text.data[st.i] (List.getElem?_eq_getElem hi)
        (by simpa using he)] at hstep
      cases hstep
      have hf : isEmoji text.data[st.i] = false := by simpa using he
      simp only [htake, String.data_append, List.filter_append, hinv]
      have hone : (String.singleton text.data[st.i]).data = [text.data[st.i]] := rfl
      rw [hone]
      simp only [List.filter, hf, Bool.not_false, Bool.true_and]
  · rw [segStep_done vm text st (by omega)] at hstep
    cases hstep

/-- The same for any number of iterations. -/
theorem segLoop_ordinary (vm : ModifierTable) (text : String) :
    ∀ (fuel : Nat) (st : SegState),
      st.withoutEmojis.data.filter (fun c => c != replacementChar) =
        (text.data.take st.i).filter (fun c => !isEmoji c && c != replacementChar) →
      (segLoop vm text fuel st).withoutEmojis.data.filter (fun c => c != replacementChar) =
        (text.data.take (segLoop vm text fuel st).i).filter
          (fun c => !isEmoji c && c != replacementChar) := by
  intro fuel
  induction fuel with
  | zero => intro st hinv; simpa [segLoop] using hinv
  | succ fuel ih =>
    intro st hinv
    rw [segLoop]
    cases hstep : segStep vm text st with
    | none => simpa using hinv
    | some st' => exact ih st' (segStep_ordinary vm text st st' hstep hinv)

/-- C20: the segmenter preserves ordinary text exactly: deleting every U+FFF5
from the normalized string gives the runes of the input that are neither
emoji candidates nor U+FFF5, in their original order. -/
theorem segment_ordinary_text (vm : ModifierTable) (text : String) :
    (segment vm text).1.data.filter (fun c => c != replacementChar) =
      text.data.filter (fun c => !isEmoji c && c != replacementChar) := by
  have hloop := segLoop_ordinary vm text text.data.length segInit (by simp [segInit])
  have hexit := segStep_none_le vm text _
    (segLoop_exits vm text text.data.length segInit (by simp [segInit]))
  rw [List.take_of_length_le hexit] at hloop
  exact hloop

end WaSticker
